import Mathlib

set_option maxRecDepth 4000

/-!
Verification of core algorithms of the LLMCouncil-Optimization backend.

The Python source is shallowly embedded: Python strings are lists of
characters, Python floats are exact rationals, fallible operations return
`Option`/`Except`, and the SQLite job store is a list of records with
explicit state passing.  Network and database effects (LLM calls, FTS
queries, stored embeddings) enter the definitions as explicit oracle
parameters; all surrounding control flow is translated from the source.
-/

namespace LLMCouncil

/-- Python strings are modelled as lists of characters. -/
abbrev Str := List Char

/-- Convenience conversion from Lean string literals. -/
def str (s : String) : Str := s.data

/-- ASCII whitespace, modelling Python `str.strip` and the regex class `\s`
(the non-ASCII Unicode members of the class are not modelled). -/
def isPySpace (c : Char) : Bool :=
  c == ' ' || c == '\t' || c == '\n' || c == '\r' || c == Char.ofNat 11 || c == Char.ofNat 12

/-- Python `str.strip()`: remove leading and trailing whitespace. -/
def pyStrip (s : Str) : Str :=
  ((s.dropWhile isPySpace).reverse.dropWhile isPySpace).reverse

/-- Python `str.lower()` restricted to ASCII letters. -/
def pyLower (s : Str) : Str := s.map Char.toLower

/-- Result of `llm_client.parse_model_spec`. -/
structure ModelSpec where
  provider : Str
  model : Str
deriving DecidableEq, Repr

/-- Translated from `llm_client.parse_model_spec`: split `"<provider>:<model>"`
on the first colon; an absent colon, or a provider or model part that is empty
after stripping, falls back to provider `openrouter` with the whole original
spec as the model. -/
def parse_model_spec (spec : Str) : ModelSpec :=
  if ':' ∈ spec then
    let provider0 := spec.takeWhile (fun c => c != ':')
    let model0 := (spec.dropWhile (fun c => c != ':')).drop 1
    let provider := pyLower (pyStrip provider0)
    let model := pyStrip model0
    if provider = [] ∨ model = [] then ⟨str "openrouter", spec⟩
    else ⟨provider, model⟩
  else ⟨str "openrouter", spec⟩

theorem pyLower_eq_nil_iff (s : Str) : pyLower s = [] ↔ s = [] := by
  simp [pyLower]

theorem takeWhile_ne_eq_take_indexOf (s : Str) (c : Char) :
    s.takeWhile (fun x => x != c) = s.take (s.indexOf c) := by
  induction s with
  | nil => rfl
  | cons a as ih =>
      by_cases h : a = c
      · subst h
        simp [List.takeWhile_cons, List.indexOf_cons_self]
      · have hbne : (a != c) = true := by simp [bne, h]
        have hidx : (a :: as).indexOf c = as.indexOf c + 1 := by
          simp [List.indexOf_cons, beq_false_of_ne h]
        simp [List.takeWhile_cons, hbne, hidx, ih]

theorem dropWhile_ne_eq_drop_indexOf (s : Str) (c : Char) :
    s.dropWhile (fun x => x != c) = s.drop (s.indexOf c) := by
  induction s with
  | nil => rfl
  | cons a as ih =>
      by_cases h : a = c
      · subst h
        simp [List.dropWhile_cons, List.indexOf_cons_self]
      · have hbne : (a != c) = true := by simp [bne, h]
        have hidx : (a :: as).indexOf c = as.indexOf c + 1 := by
          simp [List.indexOf_cons, beq_false_of_ne h]
        simp [List.dropWhile_cons, hbne, hidx, ih]

/-- C10: `parse_model_spec` treats a spec whose provider part or model part is
empty after trimming (e.g. `":model"` or `"provider:"`) like a spec without a
provider prefix, returning provider `openrouter` with the entire original
string (colon included) as the model; every other spec containing a colon
yields the lowercased trimmed text before the first colon as provider and the
trimmed remainder as model. -/
theorem parse_model_spec_colon_cases (spec : Str) (h : ':' ∈ spec) :
    (pyStrip (spec.take (spec.indexOf ':')) = [] ∨
        pyStrip (spec.drop (spec.indexOf ':' + 1)) = [] →
      parse_model_spec spec = ⟨str "openrouter", spec⟩) ∧
    (pyStrip (spec.take (spec.indexOf ':')) ≠ [] ∧
        pyStrip (spec.drop (spec.indexOf ':' + 1)) ≠ [] →
      parse_model_spec spec =
        ⟨pyLower (pyStrip (spec.take (spec.indexOf ':'))),
          pyStrip (spec.drop (spec.indexOf ':' + 1))⟩) := by
  have htake := takeWhile_ne_eq_take_indexOf spec ':'
  have hdrop := dropWhile_ne_eq_drop_indexOf spec ':'
  have hdrop1 : (spec.dropWhile (fun x => x != ':')).drop 1 =
      spec.drop (spec.indexOf ':' + 1) := by
    rw [hdrop, List.drop_drop, Nat.add_comm]
  constructor
  · intro hemp
    unfold parse_model_spec
    rw [if_pos h, htake, hdrop1]
    have : pyLower (pyStrip (spec.take (spec.indexOf ':'))) = [] ∨
        pyStrip (spec.drop (spec.indexOf ':' + 1)) = [] := by
      rcases hemp with h1 | h2
      · exact Or.inl ((pyLower_eq_nil_iff _).mpr h1)
      · exact Or.inr h2
    rw [if_pos this]
  · intro ⟨h1, h2⟩
    unfold parse_model_spec
    rw [if_pos h, htake, hdrop1]
    have hl : ¬(pyLower (pyStrip (spec.take (spec.indexOf ':'))) = [] ∨
        pyStrip (spec.drop (spec.indexOf ':' + 1)) = []) := by
      push_neg
      exact ⟨fun hc => h1 ((pyLower_eq_nil_iff _).mp hc), h2⟩
    simp [hl]

theorem parse_model_spec_colon_cases_witness :
    parse_model_spec (str ":model") = ⟨str "openrouter", str ":model"⟩ ∧
    parse_model_spec (str "APIYI: m ") = ⟨str "apiyi", str "m"⟩ :=
  ⟨(parse_model_spec_colon_cases (str ":model") (by decide)).1 (by decide),
   (parse_model_spec_colon_cases (str "APIYI: m ") (by decide)).2 (by decide)⟩

/-- `chat` response shape of the gateway (`content` plus `reasoning_details`). -/
structure ChatResponse where
  content : Option Str
  reasoningDetails : Option Str
deriving DecidableEq, Repr

/-- Outcomes of the four provider transports (`_query_openai_compatible` for
openrouter/dashscope/apiyi and `_query_ollama`).  Each transport catches every
exception internally and returns `None` on failure, so a transport is a total
function returning an optional response; the concrete network outcome is an
oracle parameter. -/
structure GatewayOracle where
  openrouter : Option ChatResponse
  dashscope : Option ChatResponse
  apiyi : Option ChatResponse
  ollama : Option ChatResponse
deriving DecidableEq, Repr

/-- The one exception `query_model` itself can raise (`ValueError` for an
unsupported provider). -/
inductive GatewayError where
  | unsupportedProvider (provider : Str)
deriving DecidableEq, Repr

/-- Translated from `llm_client.query_model`: dispatch on the parsed provider;
recognized providers delegate to a transport that never raises, any other
provider raises `ValueError`. -/
def query_model (net : GatewayOracle) (spec : Str) :
    Except GatewayError (Option ChatResponse) :=
  if (parse_model_spec spec).provider = str "openrouter" then .ok net.openrouter
  else if (parse_model_spec spec).provider = str "dashscope" then .ok net.dashscope
  else if (parse_model_spec spec).provider = str "apiyi" then .ok net.apiyi
  else if (parse_model_spec spec).provider = str "ollama" then .ok net.ollama
  else .error (.unsupportedProvider (parse_model_spec spec).provider)

/-- C5 counterexample: `query_model` does raise on a spec whose provider prefix
is outside the recognized set, instead of returning null. -/
theorem query_model_unsupported_raises :
    query_model ⟨none, none, none, none⟩ (str "foo:bar") =
      .error (.unsupportedProvider (str "foo")) := by rfl

/-- C5 (amended): for a spec whose parsed provider is one of the four
recognized providers, `query_model` never raises: every failure surfaces as a
null (`none`) result of the transport; for any other parsed provider it raises
`ValueError` instead of returning null. -/
theorem query_model_error_semantics (net : GatewayOracle) (spec : Str) :
    ((parse_model_spec spec).provider ∈
        [str "openrouter", str "dashscope", str "apiyi", str "ollama"] →
      ∃ r : Option ChatResponse, query_model net spec = .ok r) ∧
    ((parse_model_spec spec).provider ∉
        [str "openrouter", str "dashscope", str "apiyi", str "ollama"] →
      query_model net spec =
        .error (.unsupportedProvider (parse_model_spec spec).provider)) := by
  unfold query_model
  constructor
  · intro hmem
    simp only [List.mem_cons, List.mem_singleton, List.not_mem_nil, or_false] at hmem
    rcases hmem with h | h | h | h
    · exact ⟨net.openrouter, by rw [h, if_pos rfl]⟩
    · exact ⟨net.dashscope, by rw [h, if_neg (by decide), if_pos rfl]⟩
    · exact ⟨net.apiyi, by rw [h, if_neg (by decide), if_neg (by decide), if_pos rfl]⟩
    · exact ⟨net.ollama, by
        rw [h, if_neg (by decide), if_neg (by decide), if_neg (by decide), if_pos rfl]⟩
  · intro hmem
    simp only [List.mem_cons, List.mem_singleton, List.not_mem_nil, or_false] at hmem
    push_neg at hmem
    obtain ⟨h1, h2, h3, h4⟩ := hmem
    rw [if_neg h1, if_neg h2, if_neg h3, if_neg h4]

theorem query_model_error_semantics_witness :
    (∃ r : Option ChatResponse,
        query_model ⟨none, none, none, none⟩ (str "gpt-4") = .ok r) ∧
    query_model ⟨none, none, none, none⟩ (str "zzz:m") =
      .error (.unsupportedProvider (parse_model_spec (str "zzz:m")).provider) :=
  ⟨(query_model_error_semantics ⟨none, none, none, none⟩ (str "gpt-4")).1 (by decide),
   (query_model_error_semantics ⟨none, none, none, none⟩ (str "zzz:m")).2 (by decide)⟩

/-- Conversation fields governed by the chairman-override endpoint. -/
structure Conversation where
  chairman_agent_id : Str
  chairman_model : Str
deriving DecidableEq, Repr

/-- Translated from `main.set_conversation_chairman` composed with the storage
helpers `update_conversation_chairman_agent` and
`update_conversation_chairman_model`: a request with a non-blank agent id sets
the (stripped) agent id and clears the model override; otherwise the agent id
is cleared and the (stripped) requested model is stored. -/
def set_conversation_chairman (conv : Conversation) (reqAgentId reqModel : Str) :
    Conversation :=
  if pyStrip reqAgentId ≠ [] then
    { conv with chairman_agent_id := pyStrip reqAgentId, chairman_model := pyStrip [] }
  else
    { conv with chairman_agent_id := pyStrip [], chairman_model := pyStrip reqModel }

/-- C7: after any set-chairman operation the two override fields are mutually
exclusive: a non-blank requested agent id is stored with the model override
cleared, and otherwise the agent id is cleared and the requested model stored;
in particular at least one of the two resulting fields is empty. -/
theorem set_conversation_chairman_exclusive (conv : Conversation) (ra rm : Str) :
    (pyStrip ra ≠ [] →
      (set_conversation_chairman conv ra rm).chairman_agent_id = pyStrip ra ∧
      (set_conversation_chairman conv ra rm).chairman_model = []) ∧
    (pyStrip ra = [] →
      (set_conversation_chairman conv ra rm).chairman_agent_id = [] ∧
      (set_conversation_chairman conv ra rm).chairman_model = pyStrip rm) ∧
    ((set_conversation_chairman conv ra rm).chairman_agent_id = [] ∨
      (set_conversation_chairman conv ra rm).chairman_model = []) := by
  unfold set_conversation_chairman
  by_cases h : pyStrip ra = []
  · rw [if_neg (fun hc => hc h)]
    exact ⟨fun hne => absurd h hne, fun _ => ⟨rfl, rfl⟩, Or.inl rfl⟩
  · rw [if_pos h]
    exact ⟨fun _ => ⟨rfl, rfl⟩, fun he => absurd he h, Or.inr rfl⟩

theorem set_conversation_chairman_exclusive_witness :
    (set_conversation_chairman ⟨str "old", str "m0"⟩ (str " a1 ") (str "m1")).chairman_agent_id
        = pyStrip (str " a1 ") ∧
    (set_conversation_chairman ⟨str "old", str "m0"⟩ (str " a1 ") (str "m1")).chairman_model
        = [] :=
  (set_conversation_chairman_exclusive ⟨str "old", str "m0"⟩ (str " a1 ") (str "m1")).1
    (by decide)

/-- Regex `Response [A-Z]` matched at the head of the input: returns the label
letter and the remainder after the match. -/
def matchLabelAt (l : Str) : Option (Char × Str) :=
  match l.drop 9 with
  | c :: rest =>
    if (str "Response ").isPrefixOf l ∧ 'A' ≤ c ∧ c ≤ 'Z' then some (c, rest) else none
  | [] => none

/-- Regex `\d+\.\s*Response [A-Z]` matched at the head of the input (the digit
and whitespace classes are modelled over ASCII): returns the label letter and
the remainder after the match. -/
def matchNumberedAt (l : Str) : Option (Char × Str) :=
  if l.takeWhile Char.isDigit = [] then none
  else
    match l.drop (l.takeWhile Char.isDigit).length with
    | '.' :: r2 => matchLabelAt (r2.dropWhile isPySpace)
    | _ => none

/-- `re.findall(r"Response [A-Z]", ·)`: non-overlapping left-to-right scan,
collecting the label letters.  The fuel argument bounds the recursion; the
entry point passes the input length, which always suffices because every step
consumes at least one character. -/
def scanLabelsF : Nat → Str → List Char
  | 0, _ => []
  | _ + 1, [] => []
  | f + 1, c :: rest =>
    match matchLabelAt (c :: rest) with
    | some (lbl, rem) => lbl :: scanLabelsF f rem
    | none => scanLabelsF f rest

def scanLabels (s : Str) : List Char := scanLabelsF s.length s

/-- `re.findall(r"\d+\.\s*Response [A-Z]", ·)` followed by extracting the
`Response X` token of every match, as the parser does. -/
def scanNumberedF : Nat → Str → List Char
  | 0, _ => []
  | _ + 1, [] => []
  | f + 1, c :: rest =>
    match matchNumberedAt (c :: rest) with
    | some (lbl, rem) => lbl :: scanNumberedF f rem
    | none => scanNumberedF f rest

def scanNumbered (s : Str) : List Char := scanNumberedF s.length s

def finalRankingSentinel : Str := str "FINAL RANKING:"

/-- Index of the first occurrence of `sep` as a contiguous substring. -/
def findSub (sep : Str) : Str → Option Nat
  | [] => if sep.isPrefixOf ([] : Str) then some 0 else none
  | c :: rest =>
    if sep.isPrefixOf (c :: rest) then some 0
    else (findSub sep rest).map (· + 1)

def mkLabel (c : Char) : Str := str "Response " ++ [c]

/-- The section `split("FINAL RANKING:")[1]`: the text between the first
occurrence of the sentinel and the next occurrence (or the end). -/
def rankingSection (text : Str) (i : Nat) : Str :=
  match findSub finalRankingSentinel (text.drop (i + finalRankingSentinel.length)) with
  | some j => (text.drop (i + finalRankingSentinel.length)).take j
  | none => text.drop (i + finalRankingSentinel.length)

/-- Translated from `council.parse_ranking_from_text`: when the sentinel
`FINAL RANKING:` occurs, work on `split("FINAL RANKING:")[1]`, preferring
numbered matches and falling back to bare `Response [A-Z]` matches; without
the sentinel, scan the whole text for bare matches. -/
def parse_ranking_from_text (text : Str) : List Str :=
  match findSub finalRankingSentinel text with
  | some i =>
    if scanNumbered (rankingSection text i) ≠ [] then
      (scanNumbered (rankingSection text i)).map mkLabel
    else (scanLabels (rankingSection text i)).map mkLabel
  | none => (scanLabels text).map mkLabel

theorem matchLabelAt_bound {l : Str} {c : Char} {rem : Str}
    (h : matchLabelAt l = some (c, rem)) : 'A' ≤ c ∧ c ≤ 'Z' := by
  unfold matchLabelAt at h
  rcases hd : l.drop 9 with - | ⟨c2, rest⟩ <;> rw [hd] at h <;> dsimp only at h
  · cases h
  · by_cases hc : (str "Response ").isPrefixOf l ∧ 'A' ≤ c2 ∧ c2 ≤ 'Z'
    · rw [if_pos hc] at h
      cases h
      exact hc.2
    · rw [if_neg hc] at h
      cases h

theorem matchNumberedAt_bound {l : Str} {c : Char} {rem : Str}
    (h : matchNumberedAt l = some (c, rem)) : 'A' ≤ c ∧ c ≤ 'Z' := by
  unfold matchNumberedAt at h
  split at h
  · cases h
  · split at h
    · exact matchLabelAt_bound h
    · cases h

theorem scanLabelsF_bound :
    ∀ f (s : Str) (x : Char), x ∈ scanLabelsF f s → 'A' ≤ x ∧ x ≤ 'Z' := by
  intro f
  induction f with
  | zero => intro s x hx; simp [scanLabelsF] at hx
  | succ f ih =>
    intro s x hx
    cases s with
    | nil => simp [scanLabelsF] at hx
    | cons c rest =>
      rw [scanLabelsF] at hx
      cases hm : matchLabelAt (c :: rest) with
      | none => rw [hm] at hx; exact ih rest x hx
      | some p =>
        obtain ⟨lbl, rem⟩ := p
        rw [hm] at hx
        rcases List.mem_cons.mp hx with hx | hx
        · exact hx ▸ matchLabelAt_bound hm
        · exact ih rem x hx

theorem scanNumberedF_bound :
    ∀ f (s : Str) (x : Char), x ∈ scanNumberedF f s → 'A' ≤ x ∧ x ≤ 'Z' := by
  intro f
  induction f with
  | zero => intro s x hx; simp [scanNumberedF] at hx
  | succ f ih =>
    intro s x hx
    cases s with
    | nil => simp [scanNumberedF] at hx
    | cons c rest =>
      rw [scanNumberedF] at hx
      cases hm : matchNumberedAt (c :: rest) with
      | none => rw [hm] at hx; exact ih rest x hx
      | some p =>
        obtain ⟨lbl, rem⟩ := p
        rw [hm] at hx
        rcases List.mem_cons.mp hx with hx | hx
        · exact hx ▸ matchNumberedAt_bound hm
        · exact ih rem x hx

/-- C4 counterexample: the parsed ranking can contain the same label twice
(here, with the sentinel absent, both prose occurrences of `Response A` are
returned), so parsed rankings are not duplicate-free. -/
theorem parse_ranking_duplicates :
    parse_ranking_from_text (str "Response A Response A") =
      [str "Response A", str "Response A"] ∧
    ¬ (parse_ranking_from_text (str "Response A Response A")).Nodup := by
  constructor
  · rfl
  · decide

/-- C4 (amended): every element of a parsed ranking is a label of the form
`Response A` through `Response Z`; duplicates within one ranking, however,
are possible. -/
theorem parse_ranking_labels_wellformed (text : Str) (l : Str)
    (h : l ∈ parse_ranking_from_text text) :
    ∃ c : Char, 'A' ≤ c ∧ c ≤ 'Z' ∧ l = mkLabel c := by
  unfold parse_ranking_from_text at h
  split at h
  · split at h
    · rcases List.mem_map.mp h with ⟨c, hc, rfl⟩
      obtain ⟨h1, h2⟩ := scanNumberedF_bound _ _ _ hc
      exact ⟨c, h1, h2, rfl⟩
    · rcases List.mem_map.mp h with ⟨c, hc, rfl⟩
      obtain ⟨h1, h2⟩ := scanLabelsF_bound _ _ _ hc
      exact ⟨c, h1, h2, rfl⟩
  · rcases List.mem_map.mp h with ⟨c, hc, rfl⟩
    obtain ⟨h1, h2⟩ := scanLabelsF_bound _ _ _ hc
    exact ⟨c, h1, h2, rfl⟩

theorem parse_ranking_labels_wellformed_witness :
    ∃ c : Char, 'A' ≤ c ∧ c ≤ 'Z' ∧ str "Response B" = mkLabel c :=
  parse_ranking_labels_wellformed
    (str "FINAL RANKING: 1. Response B") (str "Response B") (by decide)

/-- Agent fields used by the deliberation pipeline. -/
structure AgentConf where
  id : Str
  name : Str
  model_spec : Str
  influence_weight : ℚ
  seniority_years : ℤ
deriving DecidableEq, Repr

/-- Translated from `council._agent_vote_weight`:
`max(0.0, influence) * (1.0 + max(0, int(seniority)) / 10.0)`. -/
def agent_vote_weight (a : AgentConf) : ℚ :=
  max 0 a.influence_weight * (1 + (max 0 a.seniority_years : ℚ) / 10)

/-- Round-half-to-even, modelling Python `round` (floats are embedded as exact
rationals, so binary-representation artifacts of `float` are not modelled). -/
def roundHalfEven (q : ℚ) : ℤ :=
  if Int.fract q < 1 / 2 then ⌊q⌋
  else if 1 / 2 < Int.fract q then ⌊q⌋ + 1
  else if 2 ∣ ⌊q⌋ then ⌊q⌋ else ⌊q⌋ + 1

/-- Python `round(q, n)`. -/
def pyRound (n : ℕ) (q : ℚ) : ℚ := (roundHalfEven (q * 10 ^ n) : ℚ) / 10 ^ n

/-- Stage-2 record as built by `council.stage2_collect_rankings`; `vote_weight`
is optional so that records with a missing or null weight can be expressed
(the aggregation reads it with `ranking.get("vote_weight") or 1.0`). -/
structure Stage2Record where
  agent_id : Str
  agent_name : Str
  model : Str
  influence_weight : ℚ
  seniority_years : ℤ
  vote_weight : Option ℚ
  ranking : Str
  parsed_ranking : List Str
deriving DecidableEq, Repr

/-- The record `stage2_collect_rankings` appends for agent `a` whose ranking
response text is `text`: `vote_weight = round(_agent_vote_weight(agent), 4)`. -/
def mkStage2Record (a : AgentConf) (text : Str) : Stage2Record :=
  ⟨a.id, a.name, a.model_spec, a.influence_weight, a.seniority_years,
    some (pyRound 4 (agent_vote_weight a)), text, parse_ranking_from_text text⟩

/-- `float(ranking.get("vote_weight") or 1.0)`: a missing, null or zero weight
is replaced by `1.0`. -/
def effectiveVoteWeight : Option ℚ → ℚ
  | none => 1
  | some w => if w = 0 then 1 else w

/-- First-match association-list lookup (Python dict access for dicts with
unique keys). -/
def alookup {α β : Type} [DecidableEq α] (k : α) : List (α × β) → Option β
  | [] => none
  | (k2, v) :: rest => if k2 = k then some v else alookup k rest

/-- Accumulator triple for one model: weighted position sum, total weight,
vote count (the three Python dicts keyed by model, always bumped together). -/
structure AggAcc where
  wsum : ℚ
  wtot : ℚ
  votes : ℕ
deriving DecidableEq, Repr

abbrev AggMap := List (Str × AggAcc)

/-- One dict bump at `key` with position `p` and weight `w`; a fresh key is
appended, preserving Python dict insertion order. -/
def bumpAgg (m : AggMap) (key : Str) (p : ℕ) (w : ℚ) : AggMap :=
  match m with
  | [] => [(key, ⟨p * w, w, 1⟩)]
  | (k, acc) :: rest =>
    if k = key then (k, ⟨acc.wsum + p * w, acc.wtot + w, acc.votes + 1⟩) :: rest
    else (k, acc) :: bumpAgg rest key p w

/-- The inner loop `for position, label in enumerate(parsed_ranking, start=1)`:
labels missing from the label map are skipped but still occupy a position. -/
def processFrom (labelToModel : List (Str × Str)) (w : ℚ) :
    AggMap → ℕ → List Str → AggMap
  | acc, _, [] => acc
  | acc, pos, l :: ls =>
    match alookup l labelToModel with
    | some mdl => processFrom labelToModel w (bumpAgg acc mdl pos w) (pos + 1) ls
    | none => processFrom labelToModel w acc (pos + 1) ls

/-- Aggregate-ranking output row. -/
structure AggRanking where
  model : Str
  average_rank : ℚ
  votes : ℕ
  total_vote_weight : ℚ
deriving DecidableEq, Repr

/-- The relation by which the aggregate list is sorted (ascending
`average_rank`). -/
def aggLe (x y : AggRanking) : Prop := x.average_rank ≤ y.average_rank

instance : DecidableRel aggLe := fun _ _ => inferInstanceAs (Decidable (_ ≤ _))

/-- Translated from `council.calculate_aggregate_rankings`: re-parse each
record's ranking text, accumulate weighted positions per model (weight
`vote_weight or 1.0`), emit one row per model with
`average_rank = round(weighted_sum / (total_weight or 1.0), 3)`, and sort
ascending by `average_rank`. -/
def processRecord (labelToModel : List (Str × Str)) (acc : AggMap)
    (r : Stage2Record) : AggMap :=
  processFrom labelToModel (effectiveVoteWeight r.vote_weight) acc 1
    (parse_ranking_from_text r.ranking)

/-- Output row for one accumulator entry. -/
def aggRow (ka : Str × AggAcc) : AggRanking :=
  ⟨ka.1, pyRound 3 (ka.2.wsum / (if ka.2.wtot = 0 then 1 else ka.2.wtot)),
    ka.2.votes, pyRound 3 (if ka.2.wtot = 0 then 1 else ka.2.wtot)⟩

def calculate_aggregate_rankings (stage2 : List Stage2Record)
    (labelToModel : List (Str × Str)) : List AggRanking :=
  ((stage2.foldl (processRecord labelToModel) []).map aggRow).insertionSort aggLe

/-- The Stage-2 record list of a run whose agents and ranking texts are given
pointwise. -/
def stage2Records (agents : List AgentConf) (texts : List Str) : List Stage2Record :=
  List.zipWith mkStage2Record agents texts

/-- Specification-side view: the voters (agent, ranking-text pairs) whose
parsed ranking mentions label `lbl`. -/
def votersFor (agents : List AgentConf) (texts : List Str) (lbl : Str) :
    List (AgentConf × Str) :=
  (agents.zip texts).filter fun p => lbl ∈ parse_ranking_from_text p.2

/-- Zero-based index of the first occurrence of `a`. -/
def idxOf (a : Str) : List Str → ℕ
  | [] => 0
  | b :: bs => if b = a then 0 else idxOf a bs + 1

/-- Specification-side weighted position sum for label `lbl`. -/
def specNum (agents : List AgentConf) (texts : List Str) (lbl : Str) : ℚ :=
  ((votersFor agents texts lbl).map fun p =>
    ((idxOf lbl (parse_ranking_from_text p.2) + 1 : ℕ) : ℚ) *
      pyRound 4 (agent_vote_weight p.1)).sum

/-- Specification-side total vote weight for label `lbl`. -/
def specDen (agents : List AgentConf) (texts : List Str) (lbl : Str) : ℚ :=
  ((votersFor agents texts lbl).map fun p => pyRound 4 (agent_vote_weight p.1)).sum

theorem mem_of_alookup_eq_some {α β : Type} [DecidableEq α]
    {l : List (α × β)} {k : α} {v : β} (h : alookup k l = some v) : (k, v) ∈ l := by
  induction l with
  | nil => cases h
  | cons p rest ih =>
    obtain ⟨k2, v2⟩ := p
    unfold alookup at h
    by_cases hk : k2 = k
    · rw [if_pos hk] at h
      cases h
      exact hk ▸ List.mem_cons_self _ _
    · rw [if_neg hk] at h
      exact List.mem_cons_of_mem _ (ih h)

theorem alookup_eq_some_of_mem {α β : Type} [DecidableEq α]
    {l : List (α × β)} (hk : (l.map Prod.fst).Nodup) {k : α} {v : β}
    (h : (k, v) ∈ l) : alookup k l = some v := by
  induction l with
  | nil => cases h
  | cons p rest ih =>
    obtain ⟨k2, v2⟩ := p
    rw [List.map_cons, List.nodup_cons] at hk
    rcases List.mem_cons.mp h with h | h
    · cases h
      unfold alookup
      rw [if_pos rfl]
    · unfold alookup
      by_cases hkk : k2 = k
      · subst hkk
        exact absurd (List.mem_map_of_mem Prod.fst h) hk.1
      · rw [if_neg hkk]
        exact ih hk.2 h

theorem pair_unique_of_snd_nodup {l : List (Str × Str)}
    (hv : (l.map Prod.snd).Nodup) {a b m : Str}
    (h1 : (a, m) ∈ l) (h2 : (b, m) ∈ l) : a = b := by
  induction l with
  | nil => cases h1
  | cons p rest ih =>
    rw [List.map_cons, List.nodup_cons] at hv
    rcases List.mem_cons.mp h1 with h1 | h1 <;> rcases List.mem_cons.mp h2 with h2 | h2
    · exact (Prod.mk.inj (h1.trans h2.symm)).1
    · exfalso
      apply hv.1
      have hm : m ∈ rest.map Prod.snd := List.mem_map_of_mem Prod.snd h2
      have hp2 : p.2 = m := (congrArg Prod.snd h1).symm
      rw [hp2]
      exact hm
    · exfalso
      apply hv.1
      have hm : m ∈ rest.map Prod.snd := List.mem_map_of_mem Prod.snd h1
      have hp2 : p.2 = m := (congrArg Prod.snd h2).symm
      rw [hp2]
      exact hm
    · exact ih hv.2 h1 h2

/-- The value a single dict bump produces at the bumped key. -/
def bumpVal (o : Option AggAcc) (p : ℕ) (w : ℚ) : AggAcc :=
  match o with
  | some acc => ⟨acc.wsum + p * w, acc.wtot + w, acc.votes + 1⟩
  | none => ⟨p * w, w, 1⟩

theorem alookup_bumpAgg_self (m : AggMap) (key : Str) (p : ℕ) (w : ℚ) :
    alookup key (bumpAgg m key p w) = some (bumpVal (alookup key m) p w) := by
  induction m with
  | nil => simp [bumpAgg, alookup, bumpVal]
  | cons kv rest ih =>
    obtain ⟨k, acc⟩ := kv
    unfold bumpAgg
    by_cases hk : k = key
    · rw [if_pos hk]
      unfold alookup
      rw [if_pos hk, if_pos hk]
      rfl
    · rw [if_neg hk]
      unfold alookup
      rw [if_neg hk, if_neg hk]
      exact ih

theorem alookup_bumpAgg_other (m : AggMap) (key : Str) (p : ℕ) (w : ℚ)
    {k : Str} (hne : k ≠ key) :
    alookup k (bumpAgg m key p w) = alookup k m := by
  induction m with
  | nil =>
    simp only [bumpAgg, alookup]
    rw [if_neg (fun hc => hne hc.symm)]
  | cons kv rest ih =>
    obtain ⟨k2, acc⟩ := kv
    unfold bumpAgg
    by_cases hk : k2 = key
    · rw [if_pos hk]
      unfold alookup
      by_cases hkk : k2 = k
      · exact absurd (hkk ▸ hk) hne
      · rw [if_neg hkk, if_neg hkk]
    · rw [if_neg hk]
      unfold alookup
      by_cases hkk : k2 = k
      · rw [if_pos hkk, if_pos hkk]
      · rw [if_neg hkk, if_neg hkk]
        exact ih

theorem keys_bumpAgg (m : AggMap) (key : Str) (p : ℕ) (w : ℚ) :
    (bumpAgg m key p w).map Prod.fst =
      if key ∈ m.map Prod.fst then m.map Prod.fst else m.map Prod.fst ++ [key] := by
  induction m with
  | nil =>
    rw [List.map_nil, if_neg (List.not_mem_nil key)]
    rfl
  | cons kv rest ih =>
    obtain ⟨k, acc⟩ := kv
    unfold bumpAgg
    by_cases hk : k = key
    · subst hk
      rw [if_pos rfl, if_pos (by rw [List.map_cons]; exact List.mem_cons_self _ _)]
      rfl
    · rw [if_neg hk]
      by_cases hmem : key ∈ rest.map Prod.fst
      · have : key ∈ ((k, acc) :: rest).map Prod.fst := by
          rw [List.map_cons]; exact List.mem_cons_of_mem _ hmem
        rw [if_pos this]
        simp only [List.map_cons, ih, if_pos hmem]
      · have : key ∉ ((k, acc) :: rest).map Prod.fst := by
          rw [List.map_cons]
          intro hc
          rcases List.mem_cons.mp hc with hc | hc
          · exact hk hc.symm
          · exact hmem hc
        rw [if_neg this]
        simp only [List.map_cons, ih, if_neg hmem]
        rfl

theorem nodup_keys_bumpAgg {m : AggMap} (h : (m.map Prod.fst).Nodup)
    (key : Str) (p : ℕ) (w : ℚ) : ((bumpAgg m key p w).map Prod.fst).Nodup := by
  rw [keys_bumpAgg]
  by_cases hmem : key ∈ m.map Prod.fst
  · rwa [if_pos hmem]
  · rw [if_neg hmem, List.nodup_append]
    exact ⟨h, List.nodup_singleton key,
      fun a ha hb => hmem ((List.mem_singleton.mp hb) ▸ ha)⟩

theorem alookup_processFrom_other (labelToModel : List (Str × Str)) (w : ℚ)
    {mdl lbl : Str} (huniq : ∀ l2, alookup l2 labelToModel = some mdl → l2 = lbl) :
    ∀ (ls : List Str) (acc : AggMap) (pos : ℕ), lbl ∉ ls →
      alookup mdl (processFrom labelToModel w acc pos ls) = alookup mdl acc := by
  intro ls
  induction ls with
  | nil => intro acc pos _; rfl
  | cons l ls ih =>
    intro acc pos hnot
    have hlne : l ≠ lbl := fun hc => hnot (hc ▸ List.mem_cons_self _ _)
    have hnot2 : lbl ∉ ls := fun hc => hnot (List.mem_cons_of_mem _ hc)
    unfold processFrom
    cases hm : alookup l labelToModel with
    | none => exact ih _ _ hnot2
    | some mdl2 =>
      have hne : mdl2 ≠ mdl := fun hc => hlne (huniq l (hc ▸ hm))
      rw [ih _ _ hnot2, alookup_bumpAgg_other _ _ _ _ (fun hc => hne hc.symm)]

theorem alookup_processFrom_mem (labelToModel : List (Str × Str)) (w : ℚ)
    {mdl lbl : Str} (hl : alookup lbl labelToModel = some mdl)
    (huniq : ∀ l2, alookup l2 labelToModel = some mdl → l2 = lbl) :
    ∀ (ls : List Str) (acc : AggMap) (pos : ℕ), ls.Nodup → lbl ∈ ls →
      alookup mdl (processFrom labelToModel w acc pos ls) =
        some (bumpVal (alookup mdl acc) (pos + idxOf lbl ls) w) := by
  intro ls
  induction ls with
  | nil => intro acc pos _ hmem; cases hmem
  | cons l ls ih =>
    intro acc pos hnd hmem
    rw [List.nodup_cons] at hnd
    by_cases hll : l = lbl
    · subst hll
      unfold processFrom
      rw [hl, alookup_processFrom_other labelToModel w huniq ls _ _ hnd.1,
        alookup_bumpAgg_self,
        show idxOf l (l :: ls) = if l = l then 0 else idxOf l ls + 1 from rfl,
        if_pos rfl, Nat.add_zero]
    · have hmem2 : lbl ∈ ls := by
        rcases List.mem_cons.mp hmem with hc | hc
        · exact absurd hc.symm hll
        · exact hc
      have hidx : idxOf lbl (l :: ls) = idxOf lbl ls + 1 := by
        rw [show idxOf lbl (l :: ls) = if l = lbl then 0 else idxOf lbl ls + 1 from rfl,
          if_neg hll]
      unfold processFrom
      cases hm : alookup l labelToModel with
      | none =>
        rw [ih _ _ hnd.2 hmem2, hidx]
        congr 2
        omega
      | some mdl2 =>
        have hne : mdl2 ≠ mdl := fun hc => hll (huniq l (hc ▸ hm))
        rw [ih _ _ hnd.2 hmem2,
          alookup_bumpAgg_other _ _ _ _ (fun hc => hne hc.symm), hidx]
        congr 2
        omega

theorem keys_processFrom_nodup (labelToModel : List (Str × Str)) (w : ℚ) :
    ∀ (ls : List Str) (acc : AggMap) (pos : ℕ), (acc.map Prod.fst).Nodup →
      ((processFrom labelToModel w acc pos ls).map Prod.fst).Nodup := by
  intro ls
  induction ls with
  | nil => intro acc pos h; exact h
  | cons l ls ih =>
    intro acc pos h
    unfold processFrom
    cases alookup l labelToModel with
    | none => exact ih _ _ h
    | some mdl2 => exact ih _ _ (nodup_keys_bumpAgg h mdl2 pos w)

/-- Folding a list of (position, weight) contributions into an accumulator. -/
def addContribs (o : Option AggAcc) (cs : List (ℕ × ℚ)) : Option AggAcc :=
  cs.foldl (fun o2 c => some (bumpVal o2 c.1 c.2)) o

/-- The (1-based position, effective weight) contribution of each record that
mentions label `lbl` in its parsed ranking. -/
def contribsOf (records : List Stage2Record) (lbl : Str) : List (ℕ × ℚ) :=
  records.filterMap fun r =>
    if lbl ∈ parse_ranking_from_text r.ranking then
      some (idxOf lbl (parse_ranking_from_text r.ranking) + 1,
        effectiveVoteWeight r.vote_weight)
    else none

theorem alookup_foldl_processRecord (labelToModel : List (Str × Str)) {mdl lbl : Str}
    (hl : alookup lbl labelToModel = some mdl)
    (huniq : ∀ l2, alookup l2 labelToModel = some mdl → l2 = lbl) :
    ∀ (records : List Stage2Record) (acc : AggMap),
      (∀ r ∈ records, (parse_ranking_from_text r.ranking).Nodup) →
      alookup mdl (records.foldl (processRecord labelToModel) acc) =
        addContribs (alookup mdl acc) (contribsOf records lbl) := by
  intro records
  induction records with
  | nil => intro acc _; rfl
  | cons r rs ih =>
    intro acc hnd
    have hndr := hnd r (List.mem_cons_self _ _)
    have hndrs : ∀ r2 ∈ rs, (parse_ranking_from_text r2.ranking).Nodup :=
      fun r2 hr2 => hnd r2 (List.mem_cons_of_mem _ hr2)
    rw [List.foldl_cons, ih _ hndrs]
    by_cases hmem : lbl ∈ parse_ranking_from_text r.ranking
    · rw [show processRecord labelToModel acc r =
          processFrom labelToModel (effectiveVoteWeight r.vote_weight) acc 1
            (parse_ranking_from_text r.ranking) from rfl,
        alookup_processFrom_mem labelToModel _ hl huniq _ acc 1 hndr hmem]
      rw [show contribsOf (r :: rs) lbl =
          (idxOf lbl (parse_ranking_from_text r.ranking) + 1,
            effectiveVoteWeight r.vote_weight) :: contribsOf rs lbl by
        unfold contribsOf
        rw [List.filterMap_cons, if_pos hmem]]
      rw [show addContribs (alookup mdl acc)
            ((idxOf lbl (parse_ranking_from_text r.ranking) + 1,
              effectiveVoteWeight r.vote_weight) :: contribsOf rs lbl) =
          addContribs (some (bumpVal (alookup mdl acc)
            (idxOf lbl (parse_ranking_from_text r.ranking) + 1)
            (effectiveVoteWeight r.vote_weight))) (contribsOf rs lbl) from rfl]
      rw [Nat.add_comm 1 (idxOf lbl (parse_ranking_from_text r.ranking))]
    · rw [show processRecord labelToModel acc r =
          processFrom labelToModel (effectiveVoteWeight r.vote_weight) acc 1
            (parse_ranking_from_text r.ranking) from rfl,
        alookup_processFrom_other labelToModel _ huniq _ acc 1 hmem]
      rw [show contribsOf (r :: rs) lbl = contribsOf rs lbl by
        unfold contribsOf
        rw [List.filterMap_cons, if_neg hmem]]

theorem addContribs_some (cs : List (ℕ × ℚ)) :
    ∀ A : AggAcc, addContribs (some A) cs =
      some ⟨A.wsum + (cs.map fun c => (c.1 : ℚ) * c.2).sum,
        A.wtot + (cs.map Prod.snd).sum, A.votes + cs.length⟩ := by
  induction cs with
  | nil => intro A; simp [addContribs]
  | cons c cs ih =>
    intro A
    rw [show addContribs (some A) (c :: cs) =
        addContribs (some ⟨A.wsum + c.1 * c.2, A.wtot + c.2, A.votes + 1⟩) cs from rfl,
      ih]
    simp only [List.map_cons, List.sum_cons, List.length_cons, Option.some.injEq,
      AggAcc.mk.injEq]
    refine ⟨by rw [add_assoc], by rw [add_assoc], by omega⟩

theorem addContribs_none (cs : List (ℕ × ℚ)) (hne : cs ≠ []) :
    addContribs none cs =
      some ⟨(cs.map fun c => (c.1 : ℚ) * c.2).sum, (cs.map Prod.snd).sum, cs.length⟩ := by
  cases cs with
  | nil => exact absurd rfl hne
  | cons c cs =>
    rw [show addContribs none (c :: cs) =
        addContribs (some ⟨c.1 * c.2, c.2, 1⟩) cs from rfl, addContribs_some]
    simp only [List.map_cons, List.sum_cons, List.length_cons, Option.some.injEq,
      AggAcc.mk.injEq]
    refine ⟨?_, ?_, ?_⟩ <;> first
    | omega
    | trivial

theorem effectiveVoteWeight_of_ne_zero {w : ℚ} (h : w ≠ 0) :
    effectiveVoteWeight (some w) = w := by
  show (if w = 0 then 1 else w) = w
  exact if_neg h

theorem contribsOf_stage2Records (agents : List AgentConf) (texts : List Str)
    (lbl : Str) (hw : ∀ a ∈ agents, 0 < pyRound 4 (agent_vote_weight a)) :
    contribsOf (stage2Records agents texts) lbl =
      (votersFor agents texts lbl).map fun p =>
        (idxOf lbl (parse_ranking_from_text p.2) + 1,
          pyRound 4 (agent_vote_weight p.1)) := by
  induction agents generalizing texts with
  | nil => cases texts <;> rfl
  | cons a as ih =>
    cases texts with
    | nil => rfl
    | cons t ts =>
      have hwa : 0 < pyRound 4 (agent_vote_weight a) := hw a (List.mem_cons_self _ _)
      have hwas : ∀ a2 ∈ as, 0 < pyRound 4 (agent_vote_weight a2) :=
        fun a2 ha2 => hw a2 (List.mem_cons_of_mem _ ha2)
      have hrec : stage2Records (a :: as) (t :: ts) =
          mkStage2Record a t :: stage2Records as ts := rfl
      have hzip : (a :: as).zip (t :: ts) = (a, t) :: as.zip ts := rfl
      by_cases hmem : lbl ∈ parse_ranking_from_text t
      · rw [hrec, show contribsOf (mkStage2Record a t :: stage2Records as ts) lbl =
            (idxOf lbl (parse_ranking_from_text t) + 1,
              effectiveVoteWeight (some (pyRound 4 (agent_vote_weight a)))) ::
              contribsOf (stage2Records as ts) lbl by
          unfold contribsOf
          rw [List.filterMap_cons]
          rw [if_pos (by exact hmem)]
          rfl]
        rw [effectiveVoteWeight_of_ne_zero (ne_of_gt hwa), ih ts hwas]
        rw [show votersFor (a :: as) (t :: ts) lbl =
            (a, t) :: votersFor as ts lbl by
          unfold votersFor
          rw [hzip, List.filter_cons, if_pos (by simpa using hmem)]]
        rfl
      · rw [hrec, show contribsOf (mkStage2Record a t :: stage2Records as ts) lbl =
            contribsOf (stage2Records as ts) lbl by
          unfold contribsOf
          rw [List.filterMap_cons]
          rw [if_neg (by exact hmem)]]
        rw [ih ts hwas]
        rw [show votersFor (a :: as) (t :: ts) lbl = votersFor as ts lbl by
          unfold votersFor
          rw [hzip, List.filter_cons, if_neg (by simpa using hmem)]]

theorem keys_foldl_processRecord_nodup (labelToModel : List (Str × Str)) :
    ∀ (records : List Stage2Record) (acc : AggMap),
      (acc.map Prod.fst).Nodup →
      ((records.foldl (processRecord labelToModel) acc).map Prod.fst).Nodup := by
  intro records
  induction records with
  | nil => intro acc h; exact h
  | cons r rs ih =>
    intro acc h
    rw [List.foldl_cons]
    exact ih _ (keys_processFrom_nodup labelToModel _ _ _ _ h)

theorem mem_stage2Records {agents : List AgentConf} {texts : List Str}
    {r : Stage2Record} (h : r ∈ stage2Records agents texts) :
    ∃ a t, a ∈ agents ∧ t ∈ texts ∧ r = mkStage2Record a t := by
  induction agents generalizing texts with
  | nil => cases texts <;> cases h
  | cons a as ih =>
    cases texts with
    | nil => cases h
    | cons t ts =>
      rcases List.mem_cons.mp h with h | h
      · exact ⟨a, t, List.mem_cons_self _ _, List.mem_cons_self _ _, h⟩
      · obtain ⟨a2, t2, ha2, ht2, hr⟩ := ih h
        exact ⟨a2, t2, List.mem_cons_of_mem _ ha2, List.mem_cons_of_mem _ ht2, hr⟩

instance : IsTotal AggRanking aggLe :=
  ⟨fun a b => le_total a.average_rank b.average_rank⟩

instance : IsTrans AggRanking aggLe :=
  ⟨fun _ _ _ hab hbc => le_trans hab hbc⟩

/-- C2 (amended): for Stage-2 records built from agents with positive rounded
vote weights and duplicate-free parsed rankings, under an injective label-to-
model mapping, `calculate_aggregate_rankings` emits exactly one row per model
that received at least one vote, whose `average_rank` is the weighted average
of 1-based positions — weights `round(max(0, influence) * (1 + seniority/10), 4)`
— rounded to 3 decimal places (round-half-even), and the returned list is
sorted ascending by this rounded `average_rank`. -/
theorem calculate_aggregate_rankings_spec (agents : List AgentConf)
    (texts : List Str) (labelToModel : List (Str × Str))
    (hw : ∀ a ∈ agents, 0 < pyRound 4 (agent_vote_weight a))
    (hkeys : (labelToModel.map Prod.fst).Nodup)
    (hvals : (labelToModel.map Prod.snd).Nodup)
    (hnd : ∀ t ∈ texts, (parse_ranking_from_text t).Nodup) :
    List.Sorted aggLe
      (calculate_aggregate_rankings (stage2Records agents texts) labelToModel) ∧
    ∀ lbl mdl, (lbl, mdl) ∈ labelToModel → votersFor agents texts lbl ≠ [] →
      ∃ e, e ∈ calculate_aggregate_rankings (stage2Records agents texts) labelToModel ∧
        e.model = mdl ∧
        e.average_rank =
          pyRound 3 (specNum agents texts lbl / specDen agents texts lbl) ∧
        e.votes = (votersFor agents texts lbl).length ∧
        e.total_vote_weight = pyRound 3 (specDen agents texts lbl) ∧
        ∀ e2, e2 ∈ calculate_aggregate_rankings (stage2Records agents texts) labelToModel →
          e2.model = mdl → e2 = e := by
  constructor
  · exact List.sorted_insertionSort aggLe _
  · intro lbl mdl hmem hvoters
    have hl : alookup lbl labelToModel = some mdl := alookup_eq_some_of_mem hkeys hmem
    have huniq : ∀ l2, alookup l2 labelToModel = some mdl → l2 = lbl :=
      fun l2 h2 => pair_unique_of_snd_nodup hvals (mem_of_alookup_eq_some h2) hmem
    have hndrec : ∀ r ∈ stage2Records agents texts,
        (parse_ranking_from_text r.ranking).Nodup := by
      intro r hr
      obtain ⟨a, t, -, ht, rfl⟩ := mem_stage2Records hr
      exact hnd t ht
    have hfold := alookup_foldl_processRecord labelToModel hl huniq
      (stage2Records agents texts) [] hndrec
    rw [show alookup mdl ([] : AggMap) = none from rfl,
      contribsOf_stage2Records agents texts lbl hw] at hfold
    have hmapne : ((votersFor agents texts lbl).map fun p =>
        (idxOf lbl (parse_ranking_from_text p.2) + 1,
          pyRound 4 (agent_vote_weight p.1))) ≠ [] := by
      intro hc
      exact hvoters (List.map_eq_nil_iff.mp hc)
    rw [addContribs_none _ hmapne] at hfold
    have hnum : ((((votersFor agents texts lbl).map fun p =>
        (idxOf lbl (parse_ranking_from_text p.2) + 1,
          pyRound 4 (agent_vote_weight p.1))).map fun c => ((c.1 : ℚ) * c.2)).sum) =
        specNum agents texts lbl := by
      rw [List.map_map]
      rfl
    have hden : ((((votersFor agents texts lbl).map fun p =>
        (idxOf lbl (parse_ranking_from_text p.2) + 1,
          pyRound 4 (agent_vote_weight p.1))).map Prod.snd).sum) =
        specDen agents texts lbl := by
      rw [List.map_map]
      rfl
    have hlen : (((votersFor agents texts lbl).map fun p =>
        (idxOf lbl (parse_ranking_from_text p.2) + 1,
          pyRound 4 (agent_vote_weight p.1))).length) =
        (votersFor agents texts lbl).length := List.length_map _ _
    rw [hnum, hden, hlen] at hfold
    have hdenpos : 0 < specDen agents texts lbl := by
      unfold specDen
      apply List.sum_pos
      · intro x hx
        rcases List.mem_map.mp hx with ⟨p, hp, rfl⟩
        have hp2 : p.1 ∈ agents :=
          (List.of_mem_zip (List.mem_of_mem_filter hp)).1
        exact hw p.1 hp2
      · intro hc
        exact hvoters (List.map_eq_nil_iff.mp hc)
    have hdenne : specDen agents texts lbl ≠ 0 := ne_of_gt hdenpos
    have hFM : (mdl, (⟨specNum agents texts lbl, specDen agents texts lbl,
        (votersFor agents texts lbl).length⟩ : AggAcc)) ∈
        (stage2Records agents texts).foldl (processRecord labelToModel) [] :=
      mem_of_alookup_eq_some hfold
    have hkeysFM :
        (((stage2Records agents texts).foldl (processRecord labelToModel) []).map
          Prod.fst).Nodup :=
      keys_foldl_processRecord_nodup labelToModel _ [] List.nodup_nil
    have hperm := List.perm_insertionSort aggLe
      (((stage2Records agents texts).foldl (processRecord labelToModel) []).map aggRow)
    refine ⟨aggRow (mdl, ⟨specNum agents texts lbl, specDen agents texts lbl,
      (votersFor agents texts lbl).length⟩), ?_, rfl, ?_, rfl, ?_, ?_⟩
    · exact hperm.mem_iff.mpr (List.mem_map_of_mem aggRow hFM)
    · show pyRound 3 (specNum agents texts lbl /
        (if specDen agents texts lbl = 0 then 1 else specDen agents texts lbl)) = _
      rw [if_neg hdenne]
    · show pyRound 3 (if specDen agents texts lbl = 0 then 1
        else specDen agents texts lbl) = _
      rw [if_neg hdenne]
    · intro e2 he2 hm2
      have he2m := hperm.mem_iff.mp he2
      rcases List.mem_map.mp he2m with ⟨ka, hka, hrow⟩
      have hk1 : ka.1 = mdl := by
        have : (aggRow ka).model = ka.1 := rfl
        rw [← hrow] at hm2
        rw [← hm2, this]
      have hka2 : (mdl, ka.2) ∈
          (stage2Records agents texts).foldl (processRecord labelToModel) [] := by
        have : ka = (mdl, ka.2) := by
          rw [← hk1]
        rwa [this] at hka
      have := alookup_eq_some_of_mem hkeysFM hka2
      rw [hfold] at this
      have hka2eq : ka.2 = ⟨specNum agents texts lbl, specDen agents texts lbl,
          (votersFor agents texts lbl).length⟩ := by
        injection this.symm
      rw [← hrow, show ka = (mdl, ka.2) from by rw [← hk1], hka2eq]

/-- Agents of the spec's two-agent end-to-end scenario: weights 1.0 (seniority
0) and 2.0 (seniority 10, vote weight 4.0). -/
def sampleAgentA : AgentConf := ⟨str "a1", str "Agent1", str "mA", 1, 0⟩

def sampleAgentB : AgentConf := ⟨str "a2", str "Agent2", str "mB", 2, 10⟩

def sampleTextAB : Str := str "FINAL RANKING:\n1. Response A\n2. Response B"

def sampleTextBA : Str := str "FINAL RANKING:\n1. Response B\n2. Response A"

def sampleLabelMap : List (Str × Str) :=
  [(str "Response A", str "mA"), (str "Response B", str "mB")]

theorem calculate_aggregate_rankings_spec_witness :
    (∃ e, e ∈ calculate_aggregate_rankings
        (stage2Records [sampleAgentA, sampleAgentB] [sampleTextAB, sampleTextBA])
        sampleLabelMap ∧
      e.model = str "mA" ∧
      e.average_rank = pyRound 3
        (specNum [sampleAgentA, sampleAgentB] [sampleTextAB, sampleTextBA]
            (str "Response A") /
          specDen [sampleAgentA, sampleAgentB] [sampleTextAB, sampleTextBA]
            (str "Response A")) ∧
      e.votes = (votersFor [sampleAgentA, sampleAgentB] [sampleTextAB, sampleTextBA]
          (str "Response A")).length ∧
      e.total_vote_weight = pyRound 3
        (specDen [sampleAgentA, sampleAgentB] [sampleTextAB, sampleTextBA]
          (str "Response A")) ∧
      ∀ e2, e2 ∈ calculate_aggregate_rankings
          (stage2Records [sampleAgentA, sampleAgentB] [sampleTextAB, sampleTextBA])
          sampleLabelMap →
        e2.model = str "mA" → e2 = e) ∧
    calculate_aggregate_rankings
        (stage2Records [sampleAgentA, sampleAgentB] [sampleTextAB, sampleTextBA])
        sampleLabelMap =
      [⟨str "mB", 6 / 5, 2, 5⟩, ⟨str "mA", 9 / 5, 2, 5⟩] :=
  ⟨(calculate_aggregate_rankings_spec [sampleAgentA, sampleAgentB]
      [sampleTextAB, sampleTextBA] sampleLabelMap
      (by with_unfolding_all decide) (by decide) (by decide) (by decide)).2
    (str "Response A") (str "mA") (by decide) (by decide),
   by with_unfolding_all decide⟩

/-- A voter with influence 1 and seniority 0, i.e. vote weight exactly 1. -/
def voterOne : AgentConf := ⟨str "v", str "Voter", str "mV", 1, 0⟩

/-- C2 counterexample: three weight-1 voters place the model of label A at
positions 1, 2 and 2, so the claimed exact weighted average is 5/3, but the
emitted `average_rank` is `round(5/3, 3) = 1.667 ≠ 5/3`. -/
theorem calculate_aggregate_rankings_rounds :
    specNum [voterOne, voterOne, voterOne] [sampleTextAB, sampleTextBA, sampleTextBA]
        (str "Response A") /
      specDen [voterOne, voterOne, voterOne] [sampleTextAB, sampleTextBA, sampleTextBA]
        (str "Response A") = 5 / 3 ∧
    calculate_aggregate_rankings
        (stage2Records [voterOne, voterOne, voterOne]
          [sampleTextAB, sampleTextBA, sampleTextBA]) sampleLabelMap =
      [⟨str "mB", 1333 / 1000, 3, 3⟩, ⟨str "mA", 1667 / 1000, 3, 3⟩] ∧
    (1667 / 1000 : ℚ) ≠ 5 / 3 := by
  refine ⟨?_, ?_, ?_⟩ <;> with_unfolding_all decide

theorem effectiveVoteWeight_degenerate {o : Option ℚ}
    (h : o = none ∨ o = some 0) :
    effectiveVoteWeight o = effectiveVoteWeight (some 1) := by
  rcases h with h | h <;> subst h <;> decide

/-- C9: a Stage-2 record whose `vote_weight` is missing, null, or zero
contributes to every aggregate it votes on exactly as a weight-1.0 voter
would: replacing such a weight by 1.0 leaves the whole aggregate output
unchanged. -/
theorem zero_vote_weight_counts_as_one (stage2 : List Stage2Record)
    (labelToModel : List (Str × Str)) (i : ℕ) (r : Stage2Record)
    (hi : stage2.get? i = some r)
    (hz : r.vote_weight = none ∨ r.vote_weight = some 0) :
    calculate_aggregate_rankings stage2 labelToModel =
      calculate_aggregate_rankings
        (stage2.set i { r with vote_weight := some 1 }) labelToModel := by
  have key : ∀ (l : List Stage2Record) (j : ℕ) (acc : AggMap),
      l.get? j = some r →
      l.foldl (processRecord labelToModel) acc =
        (l.set j { r with vote_weight := some 1 }).foldl
          (processRecord labelToModel) acc := by
    intro l
    induction l with
    | nil => intro j acc hj; cases hj
    | cons x xs ih =>
      intro j acc hj
      cases j with
      | zero =>
        have hx : x = r := by injection hj
        subst hx
        rw [show (x :: xs).set 0 { x with vote_weight := some 1 } =
            { x with vote_weight := some 1 } :: xs from rfl,
          List.foldl_cons, List.foldl_cons]
        have hstep : processRecord labelToModel acc x =
            processRecord labelToModel acc { x with vote_weight := some 1 } := by
          unfold processRecord
          rw [effectiveVoteWeight_degenerate hz]
        rw [hstep]
      | succ j =>
        have hj2 : xs.get? j = some r := hj
        rw [show (x :: xs).set (j + 1) { r with vote_weight := some 1 } =
            x :: xs.set j { r with vote_weight := some 1 } from rfl,
          List.foldl_cons, List.foldl_cons]
        exact ih j _ hj2
  unfold calculate_aggregate_rankings
  rw [key stage2 i [] hi]

/-- A Stage-2 record carrying a null vote weight. -/
def nullWeightRecord : Stage2Record :=
  ⟨str "a", str "Agent", str "m", 1, 0, none, sampleTextAB,
    parse_ranking_from_text sampleTextAB⟩

theorem zero_vote_weight_counts_as_one_witness :
    calculate_aggregate_rankings [nullWeightRecord] sampleLabelMap =
      calculate_aggregate_rankings
        ([nullWeightRecord].set 0 { nullWeightRecord with vote_weight := some 1 })
        sampleLabelMap :=
  zero_vote_weight_counts_as_one [nullWeightRecord] sampleLabelMap 0
    nullWeightRecord rfl (Or.inl rfl)

/-- Whether each provider's API key environment variable is set
(`bool(config.X_API_KEY)`). -/
structure KeyConfig where
  openrouterKey : Bool
  dashscopeKey : Bool
  apiyiKey : Bool
deriving DecidableEq, Repr

/-- Translated from `llm_client.provider_key_configured`: `True`/`False` for
the three keyed providers, always `True` for ollama, `None` (unknown) for
anything else. -/
def provider_key_configured (cfg : KeyConfig) (provider : Str) : Option Bool :=
  if pyLower provider = str "openrouter" then some cfg.openrouterKey
  else if pyLower provider = str "dashscope" then some cfg.dashscopeKey
  else if pyLower provider = str "apiyi" then some cfg.apiyiKey
  else if pyLower provider = str "ollama" then some true
  else none

/-- Per-agent Stage-1 record (failed agents are omitted upstream). -/
structure Stage1Result where
  agent_id : Str
  model : Str
  response : Str
deriving DecidableEq, Repr

/-- Stage-3 result shape (`model` plus `response`). -/
structure Stage3Result where
  model : Str
  response : Str
deriving DecidableEq, Repr

/-- Everything `run_full_council` computes after a non-empty Stage 1 (stages
2/2B/2C/3 and the label metadata).  The empty-Stage-1 branch never reaches
that code, so its outcome enters as an oracle. -/
structure CouncilRest where
  stage2 : List Stage2Record
  stage3 : Stage3Result
  metadata : List (Str × Str)

/-- Python `sorted(set(l))` for strings: deduplicate, sort lexicographically. -/
def sortedDedupStr (l : List Str) : List Str :=
  l.dedup.insertionSort (· ≤ ·)

def joinCommaSpace : List Str → Str
  | [] => []
  | [x] => x
  | x :: xs => x ++ str ", " ++ joinCommaSpace xs

def missingKeysMessage (missing : List Str) : Str :=
  str "No model responded successfully. Missing API key(s) for provider(s): " ++
    joinCommaSpace missing ++ str ". Check your .env and try again."

def allFailedMessage : Str :=
  str "All models failed to respond. Please try again."

/-- The providers of the conversation's agents whose key is known-missing,
sorted and deduplicated (`missing = sorted(set(missing))`). -/
def missingProviders (agents : List AgentConf) (cfg : KeyConfig) : List Str :=
  sortedDedupStr (agents.filterMap fun a =>
    if provider_key_configured cfg (parse_model_spec a.model_spec).provider
        = some false then
      some (parse_model_spec a.model_spec).provider
    else none)

/-- Translated from `council.run_full_council` (the Stage-1 gate): when Stage 1
produced no results, return empty stage1/stage2 lists, a stage3 error result
(listing known-missing provider keys when there are any, otherwise the generic
message) and empty metadata; otherwise continue with the later stages. -/
def run_full_council (agents : List AgentConf) (cfg : KeyConfig)
    (stage1 : List Stage1Result) (rest : CouncilRest) :
    List Stage1Result × List Stage2Record × Stage3Result × List (Str × Str) :=
  if stage1 = [] then
    if missingProviders agents cfg ≠ [] then
      ([], [], ⟨str "error", missingKeysMessage (missingProviders agents cfg)⟩, [])
    else ([], [], ⟨str "error", allFailedMessage⟩, [])
  else (stage1, rest.stage2, rest.stage3, rest.metadata)

/-- C6: whenever Stage 1 returns an empty result list, `run_full_council`
returns empty stage1 and stage2 lists, empty metadata, and a stage3 result
with model `error` whose response enumerates the sorted, deduplicated provider
names of selected agents whose API key is known to be missing, falling back to
the generic all-models-failed message when none is known-missing. -/
theorem run_full_council_all_null (agents : List AgentConf) (cfg : KeyConfig)
    (rest : CouncilRest) :
    ∃ missing : List Str,
      List.Sorted (· ≤ ·) missing ∧ missing.Nodup ∧
      (∀ p, p ∈ missing ↔ ∃ a ∈ agents,
        (parse_model_spec a.model_spec).provider = p ∧
        provider_key_configured cfg p = some false) ∧
      run_full_council agents cfg [] rest =
        ([], [], ⟨str "error",
          if missing = [] then allFailedMessage
          else missingKeysMessage missing⟩, []) := by
  refine ⟨missingProviders agents cfg, ?_, ?_, ?_, ?_⟩
  · exact List.sorted_insertionSort _ _
  · exact ((List.perm_insertionSort _ _).nodup_iff).mpr (List.nodup_dedup _)
  · intro p
    constructor
    · intro hp
      have hp2 : p ∈ agents.filterMap fun a =>
          if provider_key_configured cfg (parse_model_spec a.model_spec).provider
              = some false then
            some (parse_model_spec a.model_spec).provider
          else none :=
        List.mem_dedup.mp ((List.perm_insertionSort _ _).mem_iff.mp hp)
      rcases List.mem_filterMap.mp hp2 with ⟨a, ha, hfa⟩
      by_cases hc : provider_key_configured cfg
          (parse_model_spec a.model_spec).provider = some false
      · rw [if_pos hc] at hfa
        cases hfa
        exact ⟨a, ha, rfl, hc⟩
      · rw [if_neg hc] at hfa
        cases hfa
    · intro ⟨a, ha, hpa, hconf⟩
      apply (List.perm_insertionSort _ _).mem_iff.mpr
      apply List.mem_dedup.mpr
      apply List.mem_filterMap.mpr
      refine ⟨a, ha, ?_⟩
      rw [hpa, if_pos hconf]
  · unfold run_full_council
    rw [if_pos rfl]
    by_cases hm : missingProviders agents cfg = []
    · rw [if_neg (fun hc => hc hm), if_pos hm]
    · rw [if_pos hm, if_neg hm]

theorem run_full_council_all_null_witness :
    (∃ missing : List Str,
      List.Sorted (· ≤ ·) missing ∧ missing.Nodup ∧
      (∀ p, p ∈ missing ↔ ∃ a ∈ [sampleAgentA],
        (parse_model_spec a.model_spec).provider = p ∧
        provider_key_configured ⟨false, false, false⟩ p = some false) ∧
      run_full_council [sampleAgentA] ⟨false, false, false⟩ []
          ⟨[], ⟨str "m", str "r"⟩, []⟩ =
        ([], [], ⟨str "error",
          if missing = [] then allFailedMessage
          else missingKeysMessage missing⟩, [])) ∧
    run_full_council [sampleAgentA] ⟨false, false, false⟩ []
        ⟨[], ⟨str "m", str "r"⟩, []⟩ =
      ([], [], ⟨str "error", missingKeysMessage [str "openrouter"]⟩, []) :=
  ⟨run_full_council_all_null [sampleAgentA] ⟨false, false, false⟩
      ⟨[], ⟨str "m", str "r"⟩, []⟩,
   by decide⟩

/-- Job status values of the jobs store. -/
inductive JobStatus where
  | queued
  | running
  | succeeded
  | failed
  | canceled
deriving DecidableEq, Repr

def JobStatus.isTerminal : JobStatus → Bool
  | .succeeded => true
  | .failed => true
  | .canceled => true
  | _ => false

/-- Persisted job row.  Columns the verified claims never read (payload,
progress, result, error, attempts, max_attempts, run_after_ts) are elided;
timestamps are whole seconds. -/
structure JobRec where
  id : Str
  jobType : Str
  status : JobStatus
  conversationId : Str
  injected : Bool
  idempotencyKey : Str
  createdAt : ℕ
  updatedAt : ℕ
deriving DecidableEq, Repr

/-- `SELECT * FROM jobs WHERE id=?` (first matching row). -/
def getJob (jobs : List JobRec) (jobId : Str) : Option JobRec :=
  jobs.find? fun j => j.id = jobId

/-- Translated from `JobsStore.get_by_idempotency`: the matching row with the
greatest `created_at` (`ORDER BY created_at DESC LIMIT 1`); among equal
timestamps the later row is taken, determinizing SQLite's unspecified tie
order. -/
def get_by_idempotency (jobs : List JobRec) (jobType idempotencyKey : Str) :
    Option JobRec :=
  if pyStrip jobType = [] ∨ pyStrip idempotencyKey = [] then none
  else
    (jobs.filter fun j =>
      decide (j.jobType = pyStrip jobType ∧ j.idempotencyKey = pyStrip idempotencyKey)).foldl
      (fun best j =>
        match best with
        | none => some j
        | some b => if b.createdAt ≤ j.createdAt then some j else some b)
      none

/-- Translated from `JobsStore.create_job`: a non-empty idempotency key that
matches an existing job whose status is not failed/canceled returns that job
without inserting anything; otherwise a fresh queued, non-injected row is
inserted. -/
def create_job (jobs : List JobRec) (now : ℕ) (jobId jobType convId key : Str) :
    List JobRec × JobRec :=
  if pyStrip key ≠ [] then
    match get_by_idempotency jobs jobType (pyStrip key) with
    | some ex =>
      if ex.status ≠ .failed ∧ ex.status ≠ .canceled then (jobs, ex)
      else (jobs ++ [⟨jobId, jobType, .queued, convId, false, pyStrip key, now, now⟩],
        ⟨jobId, jobType, .queued, convId, false, pyStrip key, now, now⟩)
    | none => (jobs ++ [⟨jobId, jobType, .queued, convId, false, pyStrip key, now, now⟩],
        ⟨jobId, jobType, .queued, convId, false, pyStrip key, now, now⟩)
  else (jobs ++ [⟨jobId, jobType, .queued, convId, false, pyStrip key, now, now⟩],
    ⟨jobId, jobType, .queued, convId, false, pyStrip key, now, now⟩)

/-- `JobRunner._result_ttls` with the store's `.get(job_type, 0)` default
(the entries for kb_index, kg_extract and office_ingest are the explicit 0). -/
def result_ttl (jobType : Str) : ℕ :=
  if jobType = str "web_search" then 300
  else if jobType = str "evidence_pack" then 600
  else if jobType = str "paper_search" then 600
  else 0

/-- Translated from `JobRunner.create_and_enqueue`.  `defaultKey` stands for
the SHA-1 payload hash substituted for a blank idempotency key; `now` is the
current UTC time in seconds, and the stored ISO timestamps always parse.  The
in-process queue is not modelled (enqueueing does not change the store). -/
def create_and_enqueue (jobs : List JobRec) (now : ℕ) (freshId : Str)
    (jobType convId idempotencyKey defaultKey : Str)
    (reuseTtlSeconds : Option ℕ) (forceNew : Bool) : List JobRec × JobRec :=
  let key := if pyStrip idempotencyKey = [] then defaultKey else pyStrip idempotencyKey
  let ttl := match reuseTtlSeconds with
    | none => result_ttl jobType
    | some t => t
  if key ≠ [] ∧ ¬forceNew then
    match get_by_idempotency jobs jobType key with
    | some ex =>
      if ex.status = .queued ∨ ex.status = .running then (jobs, ex)
      else if ex.status = .succeeded ∧ 0 < ttl ∧
          0 ≤ (now : ℤ) - ex.updatedAt ∧ (now : ℤ) - ex.updatedAt ≤ ttl then
        (jobs, ex)
      else create_job jobs now freshId jobType convId key
    | none => create_job jobs now freshId jobType convId key
  else create_job jobs now freshId jobType convId key

/-- A succeeded `evidence_pack` job with idempotency key `k`, completed at
time 100. -/
def succeededJob : JobRec :=
  ⟨str "j0", str "evidence_pack", .succeeded, str "c1", false, str "k", 100, 100⟩

/-- C1 failing-input evaluation: re-creating the succeeded `evidence_pack`
job with the same key 700 s later (past its 600 s TTL), and re-creating it
with `force_new=true`, both return the existing job `j0` and insert nothing,
because `JobsStore.create_job` reuses any existing job with the same key whose
status is not failed/canceled, regardless of age or `force_new`. -/
theorem create_and_enqueue_reuse_violation :
    (create_and_enqueue [succeededJob] 800 (str "jNew") (str "evidence_pack")
        (str "c1") (str "k") (str "h") none false).2.id = str "j0" ∧
    (create_and_enqueue [succeededJob] 800 (str "jNew") (str "evidence_pack")
        (str "c1") (str "k") (str "h") none false).1 = [succeededJob] ∧
    (create_and_enqueue [succeededJob] 150 (str "jNew") (str "evidence_pack")
        (str "c1") (str "k") (str "h") none true).2.id = str "j0" ∧
    (create_and_enqueue [succeededJob] 150 (str "jNew") (str "evidence_pack")
        (str "c1") (str "k") (str "h") none true).1 = [succeededJob] ∧
    str "j0" ≠ str "jNew" ∧
    (create_and_enqueue [succeededJob] 400 (str "jNew") (str "evidence_pack")
        (str "c1") (str "k") (str "h") none false).2.id = str "j0" := by
  refine ⟨?_, ?_, ?_, ?_, ?_, ?_⟩ <;> decide

/-- Store-level operations of the jobs store.  `updateJob` carries the two
columns the invariants mention (`status`, `injected`); the elided columns
(progress, result, error, attempts, max_attempts, run_after_ts) do not affect
them. -/
inductive StoreOp where
  | createJob (jobId jobType convId key : Str)
  | updateJob (jobId : Str) (status : Option JobStatus) (injected : Option Bool)
  | claimJob (jobId : Str)
  | cancelJob (jobId : Str)
  | requeueRunning
  | fetchInjectable (convId : Str) (limit : ℕ)
deriving DecidableEq, Repr

def StoreOp.isUpdate : StoreOp → Bool
  | .updateJob .. => true
  | _ => false

/-- Store state: a logical clock (timestamps increase across operations) and
the persisted rows. -/
structure StoreState where
  time : ℕ
  jobs : List JobRec
deriving DecidableEq, Repr

/-- Row effect of `UPDATE jobs SET <fields>, updated_at=? WHERE id=?` for the
modelled columns (absent fields keep their value). -/
def updateRow (now : ℕ) (jobId : Str) (status : Option JobStatus)
    (injected : Option Bool) (j : JobRec) : JobRec :=
  if j.id = jobId then
    { j with
      status := status.getD j.status
      injected := injected.getD j.injected
      updatedAt := now }
  else j

def applyUpdate (jobs : List JobRec) (now : ℕ) (jobId : Str)
    (status : Option JobStatus) (injected : Option Bool) : List JobRec :=
  jobs.map (updateRow now jobId status injected)

/-- Row effect of `JobsStore.claim_job`: the conditional
`UPDATE ... SET status='running' WHERE id=? AND status='queued'`. -/
def claimRow (now : ℕ) (jobId : Str) (j : JobRec) : JobRec :=
  if j.id = jobId ∧ j.status = .queued then
    { j with status := .running, updatedAt := now }
  else j

def applyClaim (jobs : List JobRec) (now : ℕ) (jobId : Str) : List JobRec :=
  jobs.map (claimRow now jobId)

/-- Translated from `JobsStore.cancel_job`: refuse when the job is missing or
already terminal, otherwise write status `canceled`. -/
def applyCancel (jobs : List JobRec) (now : ℕ) (jobId : Str) : List JobRec :=
  match getJob jobs jobId with
  | none => jobs
  | some j =>
    if j.status = .succeeded ∨ j.status = .failed ∨ j.status = .canceled then jobs
    else applyUpdate jobs now jobId (some .canceled) none

/-- Row effect of `JobsStore.requeue_running_jobs`:
`UPDATE jobs SET status='queued' WHERE status='running'`. -/
def requeueRow (now : ℕ) (j : JobRec) : JobRec :=
  if j.status = .running then { j with status := .queued, updatedAt := now }
  else j

def applyRequeue (jobs : List JobRec) (now : ℕ) : List JobRec :=
  jobs.map (requeueRow now)

/-- The rows `fetch_injectable_summaries` selects: succeeded, not yet
injected, same conversation, oldest `updated_at` first, clamped limit. -/
def injectableIds (jobs : List JobRec) (convId : Str) (limit : ℕ) : List Str :=
  (((jobs.filter fun j =>
      decide (j.conversationId = convId ∧ j.status = .succeeded ∧ j.injected = false)).insertionSort
        (fun a b => a.updatedAt ≤ b.updatedAt)).take
    (max 1 (min 20 limit))).map JobRec.id

/-- Row effect of the `injected=1` write on a selected row. -/
def injectRow (sel : List Str) (now : ℕ) (j : JobRec) : JobRec :=
  if j.id ∈ sel then { j with injected := true, updatedAt := now }
  else j

/-- Translated from `JobsStore.fetch_injectable_summaries` (its write side):
every selected row is marked `injected=1`.  The source loops
`update_job(j.id, injected=True)` over the selected rows; over rows with
unique ids this equals this single conditional map. -/
def applyFetchInjectable (jobs : List JobRec) (now : ℕ) (convId : Str)
    (limit : ℕ) : List JobRec :=
  if pyStrip convId = [] then jobs
  else jobs.map (injectRow (injectableIds jobs convId limit) now)

def stepOp (s : StoreState) : StoreOp → StoreState
  | .createJob jobId jobType convId key =>
    if (getJob s.jobs jobId).isSome then { s with time := s.time + 1 }
    else ⟨s.time + 1, (create_job s.jobs s.time jobId jobType convId key).1⟩
  | .updateJob jobId status injected =>
    if status = none ∧ injected = none then { s with time := s.time + 1 }
    else ⟨s.time + 1, applyUpdate s.jobs s.time jobId status injected⟩
  | .claimJob jobId => ⟨s.time + 1, applyClaim s.jobs s.time jobId⟩
  | .cancelJob jobId => ⟨s.time + 1, applyCancel s.jobs s.time jobId⟩
  | .requeueRunning => ⟨s.time + 1, applyRequeue s.jobs s.time⟩
  | .fetchInjectable convId limit =>
    ⟨s.time + 1, applyFetchInjectable s.jobs s.time convId limit⟩

def runOps (s : StoreState) (ops : List StoreOp) : StoreState :=
  ops.foldl stepOp s

/-- Row ids are unique and `injected=true` only on succeeded jobs. -/
def StoreInv (s : StoreState) : Prop :=
  (s.jobs.map JobRec.id).Nodup ∧
  ∀ j ∈ s.jobs, j.injected = true → j.status = .succeeded

instance (s : StoreState) : Decidable (StoreInv s) :=
  inferInstanceAs (Decidable (_ ∧ _))

theorem getJob_cons_pos {j : JobRec} {js : List JobRec} {i : Str} (h : j.id = i) :
    getJob (j :: js) i = some j := by
  unfold getJob
  exact List.find?_cons_of_pos _ (by simpa using h)

theorem getJob_cons_neg {j : JobRec} {js : List JobRec} {i : Str} (h : j.id ≠ i) :
    getJob (j :: js) i = getJob js i := by
  unfold getJob
  exact List.find?_cons_of_neg _ (by simpa using h)

theorem getJob_id {jobs : List JobRec} {i : Str} {j : JobRec}
    (h : getJob jobs i = some j) : j.id = i ∧ j ∈ jobs := by
  unfold getJob at h
  have h1 := @List.find?_some JobRec (fun j => decide (j.id = i)) j jobs h
  exact ⟨of_decide_eq_true h1, List.mem_of_find?_eq_some h⟩

theorem map_ids_of_id_preserving (f : JobRec → JobRec)
    (hf : ∀ j, (f j).id = j.id) (jobs : List JobRec) :
    (jobs.map f).map JobRec.id = jobs.map JobRec.id := by
  induction jobs with
  | nil => rfl
  | cons j js ih => simp [hf, ih]

theorem getJob_map (f : JobRec → JobRec) (hf : ∀ j, (f j).id = j.id)
    (jobs : List JobRec) (i : Str) :
    getJob (jobs.map f) i = (getJob jobs i).map f := by
  induction jobs with
  | nil => rfl
  | cons j js ih =>
    rw [List.map_cons]
    by_cases h : j.id = i
    · rw [getJob_cons_pos ((hf j).trans h), getJob_cons_pos h]
      rfl
    · rw [getJob_cons_neg (fun hc => h ((hf j) ▸ hc)), getJob_cons_neg h, ih]

theorem getJob_append_some {jobs : List JobRec} {i : Str} {j : JobRec}
    (h : getJob jobs i = some j) (rest : List JobRec) :
    getJob (jobs ++ rest) i = some j := by
  induction jobs with
  | nil => cases h
  | cons x xs ih =>
    by_cases hx : x.id = i
    · rw [getJob_cons_pos hx] at h
      rw [List.cons_append, getJob_cons_pos hx]
      exact h
    · rw [getJob_cons_neg hx] at h
      rw [List.cons_append, getJob_cons_neg hx]
      exact ih h

theorem getJob_eq_none_iff {jobs : List JobRec} {i : Str} :
    getJob jobs i = none ↔ ∀ j ∈ jobs, j.id ≠ i := by
  unfold getJob
  rw [List.find?_eq_none]
  constructor
  · intro h j hj
    have := h j hj
    simpa using this
  · intro h j hj
    simpa using h j hj

theorem eq_of_mem_of_nodup_ids {jobs : List JobRec}
    (hnd : (jobs.map JobRec.id).Nodup) {a b : JobRec}
    (ha : a ∈ jobs) (hb : b ∈ jobs) (hab : a.id = b.id) : a = b := by
  induction jobs with
  | nil => cases ha
  | cons x xs ih =>
    rw [List.map_cons, List.nodup_cons] at hnd
    rcases List.mem_cons.mp ha with ha | ha <;> rcases List.mem_cons.mp hb with hb | hb
    · rw [ha, hb]
    · refine absurd ?_ hnd.1
      rw [← ha, hab]
      exact List.mem_map_of_mem JobRec.id hb
    · refine absurd ?_ hnd.1
      rw [← hb, ← hab]
      exact List.mem_map_of_mem JobRec.id ha
    · exact ih hnd.2 ha hb

theorem mem_injectableIds {jobs : List JobRec} {convId : Str} {limit : ℕ} {i : Str}
    (h : i ∈ injectableIds jobs convId limit) :
    ∃ j ∈ jobs, j.id = i ∧ j.conversationId = convId ∧ j.status = .succeeded ∧
      j.injected = false := by
  unfold injectableIds at h
  rcases List.mem_map.mp h with ⟨j, hj, rfl⟩
  have hj2 := List.mem_of_mem_take hj
  have hj3 := (List.perm_insertionSort _ _).mem_iff.mp hj2
  obtain ⟨hmem, hcond⟩ := List.mem_filter.mp hj3
  have hc := of_decide_eq_true hcond
  exact ⟨j, hmem, rfl, hc.1, hc.2.1, hc.2.2⟩

/-- Common argument for operations that act as an id-preserving map over the
rows. -/
theorem mapOp_preserves (jobs : List JobRec) (f : JobRec → JobRec)
    (hid : ∀ j, (f j).id = j.id)
    (hinj : ∀ j ∈ jobs, (f j).injected = true → (f j).status = .succeeded)
    (hterm : ∀ j ∈ jobs, j.status.isTerminal = true → (f j).status = j.status)
    (hnd : (jobs.map JobRec.id).Nodup) :
    ((jobs.map f).map JobRec.id).Nodup ∧
    (∀ j ∈ jobs.map f, j.injected = true → j.status = .succeeded) ∧
    ∀ i j, getJob jobs i = some j → j.status.isTerminal = true →
      ∃ j2, getJob (jobs.map f) i = some j2 ∧ j2.status = j.status := by
  refine ⟨?_, ?_, ?_⟩
  · rw [map_ids_of_id_preserving f hid]
    exact hnd
  · intro j hj hji
    rcases List.mem_map.mp hj with ⟨j0, hj0, rfl⟩
    exact hinj j0 hj0 hji
  · intro i j hget ht
    refine ⟨f j, ?_, hterm j (getJob_id hget).2 ht⟩
    rw [getJob_map f hid, hget]
    rfl

theorem create_job_cases (jobs : List JobRec) (now : ℕ) (jobId jobType convId key : Str) :
    (create_job jobs now jobId jobType convId key).1 = jobs ∨
    (create_job jobs now jobId jobType convId key).1 =
      jobs ++ [⟨jobId, jobType, .queued, convId, false, pyStrip key, now, now⟩] := by
  unfold create_job
  by_cases h1 : pyStrip key ≠ []
  · rw [if_pos h1]
    cases hm : get_by_idempotency jobs jobType (pyStrip key) with
    | none => exact Or.inr rfl
    | some ex =>
      dsimp only
      by_cases h2 : ex.status ≠ .failed ∧ ex.status ≠ .canceled
      · rw [if_pos h2]
        exact Or.inl rfl
      · rw [if_neg h2]
        exact Or.inr rfl
  · rw [if_neg h1]
    exact Or.inr rfl

theorem stepOp_preserves {s : StoreState} {op : StoreOp}
    (hop : op.isUpdate = false) (hinv : StoreInv s) :
    StoreInv (stepOp s op) ∧
    ∀ i j, getJob s.jobs i = some j → j.status.isTerminal = true →
      ∃ j2, getJob (stepOp s op).jobs i = some j2 ∧ j2.status = j.status := by
  obtain ⟨hnd, hinj⟩ := hinv
  cases op with
  | updateJob a b c => exact absurd hop (by simp [StoreOp.isUpdate])
  | createJob jobId jobType convId key =>
    have hred : stepOp s (.createJob jobId jobType convId key) =
        if (getJob s.jobs jobId).isSome then { s with time := s.time + 1 }
        else ⟨s.time + 1, (create_job s.jobs s.time jobId jobType convId key).1⟩ := rfl
    rw [hred]
    by_cases hex : (getJob s.jobs jobId).isSome
    · rw [if_pos hex]
      exact ⟨⟨hnd, hinj⟩, fun i j h _ => ⟨j, h, rfl⟩⟩
    · rw [if_neg hex]
      rcases create_job_cases s.jobs s.time jobId jobType convId key with hc | hc

      · rw [hc]
        exact ⟨⟨hnd, hinj⟩, fun i j h _ => ⟨j, h, rfl⟩⟩
      · rw [hc]
        have hfreshid : jobId ∉ s.jobs.map JobRec.id := by
          intro hmm
          rcases List.mem_map.mp hmm with ⟨j0, hj0, hjid⟩
          exact getJob_eq_none_iff.mp (Option.not_isSome_iff_eq_none.mp hex) j0 hj0 hjid
        refine ⟨⟨?_, ?_⟩, ?_⟩
        · show ((s.jobs ++ [_]).map JobRec.id).Nodup
          rw [List.map_append, List.nodup_append]
          refine ⟨hnd, List.nodup_singleton _, fun a ha hb => ?_⟩
          rw [List.mem_singleton.mp hb] at ha
          exact hfreshid ha
        · intro j hj hji
          rcases List.mem_append.mp hj with hj | hj
          · exact hinj j hj hji
          · rw [List.mem_singleton.mp hj] at hji
            simp at hji
        · intro i j h _
          exact ⟨j, getJob_append_some h _, rfl⟩
  | claimJob jobId =>
    have hid : ∀ j : JobRec, (claimRow s.time jobId j).id = j.id := by
      intro j
      unfold claimRow
      by_cases hc : j.id = jobId ∧ j.status = .queued <;> simp [hc]
    have hinjf : ∀ j ∈ s.jobs, (claimRow s.time jobId j).injected = true →
        (claimRow s.time jobId j).status = .succeeded := by
      intro j hj hji
      unfold claimRow at hji ⊢
      by_cases hc : j.id = jobId ∧ j.status = .queued
      · rw [if_pos hc] at hji
        have hsucc := hinj j hj hji
        have h2 := hc.2
        rw [hsucc] at h2
        exact absurd h2 (by decide)
      · rw [if_neg hc] at hji ⊢
        exact hinj j hj hji
    have htermf : ∀ j ∈ s.jobs, j.status.isTerminal = true →
        (claimRow s.time jobId j).status = j.status := by
      intro j _ ht
      unfold claimRow
      by_cases hc : j.id = jobId ∧ j.status = .queued
      · rw [hc.2] at ht
        exact absurd ht (by decide)
      · rw [if_neg hc]
    obtain ⟨h1, h2, h3⟩ :=
      mapOp_preserves s.jobs (claimRow s.time jobId) hid hinjf htermf hnd
    exact ⟨⟨h1, h2⟩, h3⟩
  | cancelJob jobId =>
    have hred : stepOp s (.cancelJob jobId) =
        ⟨s.time + 1, applyCancel s.jobs s.time jobId⟩ := rfl
    rw [hred]
    unfold applyCancel
    cases hg : getJob s.jobs jobId with
    | none => exact ⟨⟨hnd, hinj⟩, fun i j h _ => ⟨j, h, rfl⟩⟩
    | some j0 =>
      dsimp only
      by_cases hterm0 : j0.status = .succeeded ∨ j0.status = .failed ∨
          j0.status = .canceled
      · rw [if_pos hterm0]
        exact ⟨⟨hnd, hinj⟩, fun i j h _ => ⟨j, h, rfl⟩⟩
      · rw [if_neg hterm0]
        obtain ⟨hj0id, hj0mem⟩ := getJob_id hg
        have hid : ∀ j : JobRec,
            (updateRow s.time jobId (some .canceled) none j).id = j.id := by
          intro j
          unfold updateRow
          by_cases hc : j.id = jobId <;> simp [hc]
        have hinjf : ∀ j ∈ s.jobs,
            (updateRow s.time jobId (some .canceled) none j).injected = true →
            (updateRow s.time jobId (some .canceled) none j).status = .succeeded := by
          intro j hj hji
          unfold updateRow at hji ⊢
          by_cases hc : j.id = jobId
          · rw [if_pos hc] at hji
            have hji2 : j.injected = true := hji
            have hj0eq : j = j0 :=
              eq_of_mem_of_nodup_ids hnd hj hj0mem (hc.trans hj0id.symm)
            have hsucc := hinj j hj hji2
            rw [hj0eq] at hsucc
            exact absurd (Or.inl hsucc) hterm0
          · rw [if_neg hc] at hji ⊢
            exact hinj j hj hji
        have htermf : ∀ j ∈ s.jobs, j.status.isTerminal = true →
            (updateRow s.time jobId (some .canceled) none j).status = j.status := by
          intro j hj ht
          unfold updateRow
          by_cases hc : j.id = jobId
          · have hj0eq : j = j0 :=
              eq_of_mem_of_nodup_ids hnd hj hj0mem (hc.trans hj0id.symm)
            exfalso
            apply hterm0
            rw [← hj0eq]
            cases hst : j.status <;> rw [hst] at ht <;> first
            | exact absurd ht (by decide)
            | exact Or.inl rfl
            | exact Or.inr (Or.inl rfl)
            | exact Or.inr (Or.inr rfl)
          · rw [if_neg hc]
        obtain ⟨h1, h2, h3⟩ := mapOp_preserves s.jobs
          (updateRow s.time jobId (some .canceled) none) hid hinjf htermf hnd
        exact ⟨⟨h1, h2⟩, h3⟩
  | requeueRunning =>
    have hid : ∀ j : JobRec, (requeueRow s.time j).id = j.id := by
      intro j
      unfold requeueRow
      by_cases hc : j.status = .running <;> simp [hc]
    have hinjf : ∀ j ∈ s.jobs, (requeueRow s.time j).injected = true →
        (requeueRow s.time j).status = .succeeded := by
      intro j hj hji
      unfold requeueRow at hji ⊢
      by_cases hc : j.status = .running
      · rw [if_pos hc] at hji
        have hsucc := hinj j hj hji
        rw [hsucc] at hc
        exact absurd hc (by decide)
      · rw [if_neg hc] at hji ⊢
        exact hinj j hj hji
    have htermf : ∀ j ∈ s.jobs, j.status.isTerminal = true →
        (requeueRow s.time j).status = j.status := by
      intro j _ ht
      unfold requeueRow
      by_cases hc : j.status = .running
      · rw [hc] at ht
        exact absurd ht (by decide)
      · rw [if_neg hc]
    obtain ⟨h1, h2, h3⟩ :=
      mapOp_preserves s.jobs (requeueRow s.time) hid hinjf htermf hnd
    exact ⟨⟨h1, h2⟩, h3⟩
  | fetchInjectable convId limit =>
    have hred : stepOp s (.fetchInjectable convId limit) =
        ⟨s.time + 1, applyFetchInjectable s.jobs s.time convId limit⟩ := rfl
    rw [hred]
    unfold applyFetchInjectable
    by_cases hconv : pyStrip convId = []
    · rw [if_pos hconv]
      exact ⟨⟨hnd, hinj⟩, fun i j h _ => ⟨j, h, rfl⟩⟩
    · rw [if_neg hconv]
      have hid : ∀ j : JobRec,
          (injectRow (injectableIds s.jobs convId limit) s.time j).id = j.id := by
        intro j
        unfold injectRow
        by_cases hc : j.id ∈ injectableIds s.jobs convId limit <;> simp [hc]
      have hinjf : ∀ j ∈ s.jobs,
          (injectRow (injectableIds s.jobs convId limit) s.time j).injected = true →
          (injectRow (injectableIds s.jobs convId limit) s.time j).status
            = .succeeded := by
        intro j hj _
        unfold injectRow
        by_cases hc : j.id ∈ injectableIds s.jobs convId limit
        · rw [if_pos hc]
          obtain ⟨j2, hj2, hj2id, -, hj2succ, -⟩ := mem_injectableIds hc
          have : j2 = j := eq_of_mem_of_nodup_ids hnd hj2 hj hj2id
          show j.status = .succeeded
          rw [← this]
          exact hj2succ
        · rw [if_neg hc]
          rename_i hji
          unfold injectRow at hji
          rw [if_neg hc] at hji
          exact hinj j hj hji
      have htermf : ∀ j ∈ s.jobs, j.status.isTerminal = true →
          (injectRow (injectableIds s.jobs convId limit) s.time j).status
            = j.status := by
        intro j _ _
        unfold injectRow
        by_cases hc : j.id ∈ injectableIds s.jobs convId limit
        · rw [if_pos hc]
        · rw [if_neg hc]
      obtain ⟨h1, h2, h3⟩ := mapOp_preserves s.jobs
        (injectRow (injectableIds s.jobs convId limit) s.time) hid hinjf htermf hnd
      exact ⟨⟨h1, h2⟩, h3⟩

/-- C3 (amended): over every sequence of guarded store operations — create,
claim, cancel, requeue-running, fetch-injectable — a job that has reached a
terminal status (succeeded, failed, canceled) keeps exactly that status, and
every job with `injected=true` has status succeeded.  The raw `update_job`
operation is excluded: it writes any supplied status or injected flag
unconditionally (see the counterexample). -/
theorem jobs_store_guarded_invariants (ops : List StoreOp) :
    ∀ s : StoreState, (∀ op ∈ ops, op.isUpdate = false) → StoreInv s →
    StoreInv (runOps s ops) ∧
    ∀ i j, getJob s.jobs i = some j → j.status.isTerminal = true →
      ∃ j2, getJob (runOps s ops).jobs i = some j2 ∧ j2.status = j.status := by
  induction ops with
  | nil => exact fun s _ hinv => ⟨hinv, fun i j h _ => ⟨j, h, rfl⟩⟩
  | cons op ops ih =>
    intro s hops hinv
    have hop : op.isUpdate = false := hops op (List.mem_cons_self _ _)
    have hstep := stepOp_preserves hop hinv
    have hrest := ih (stepOp s op)
      (fun o ho => hops o (List.mem_cons_of_mem _ ho)) hstep.1
    refine ⟨hrest.1, ?_⟩
    intro i j hget ht
    obtain ⟨j2, hget2, hst2⟩ := hstep.2 i j hget ht
    have ht2 : j2.status.isTerminal = true := by rw [hst2]; exact ht
    obtain ⟨j3, hget3, hst3⟩ := hrest.2 i j2 hget2 ht2
    exact ⟨j3, hget3, hst3.trans hst2⟩

/-- C3 counterexample: a raw `update_job` moves a succeeded job back to
queued, and separately sets `injected=true` on a queued job, violating both
invariants as claimed over the full operation set including update. -/
theorem update_job_escapes_terminal :
    (getJob (stepOp ⟨1, [⟨str "j", str "t", .succeeded, str "c", false, str "k", 0, 0⟩]⟩
        (.updateJob (str "j") (some .queued) none)).jobs (str "j")).map
      JobRec.status = some .queued ∧
    (getJob (stepOp ⟨1, [⟨str "j", str "t", .queued, str "c", false, str "k", 0, 0⟩]⟩
        (.updateJob (str "j") none (some true))).jobs (str "j")).map
      (fun j => (j.status, j.injected)) = some (.queued, true) := by
  refine ⟨?_, ?_⟩ <;> decide

theorem jobs_store_guarded_invariants_witness :
    StoreInv (runOps ⟨1, [⟨str "j", str "t", .succeeded, str "c", false, str "k", 0, 0⟩]⟩
      [.claimJob (str "j"), .cancelJob (str "j"), .requeueRunning,
        .fetchInjectable (str "c") 4,
        .createJob (str "j2") (str "t") (str "c") (str "k2")]) ∧
    (∃ j2, getJob (runOps ⟨1, [⟨str "j", str "t", .succeeded, str "c", false,
          str "k", 0, 0⟩]⟩
        [.claimJob (str "j"), .cancelJob (str "j"), .requeueRunning,
          .fetchInjectable (str "c") 4,
          .createJob (str "j2") (str "t") (str "c") (str "k2")]).jobs (str "j")
        = some j2 ∧
      j2.status = JobStatus.succeeded) :=
  ⟨(jobs_store_guarded_invariants _ _ (by decide) (by decide)).1,
   (jobs_store_guarded_invariants _ _ (by decide) (by decide)).2 (str "j")
     ⟨str "j", str "t", .succeeded, str "c", false, str "k", 0, 0⟩
     (by decide) (by decide)⟩

/-- Exact rational square root: the true square root whenever the input is
the square of a rational (which covers every input where `math.sqrt` has an
exact finite value), and 0 otherwise.  Irrational cosine denominators have no
rational embedding; no verified claim depends on their value. -/
def ratSqrt (q : ℚ) : ℚ :=
  if (Nat.sqrt q.num.toNat : ℤ) * Nat.sqrt q.num.toNat = q.num ∧
      Nat.sqrt q.den * Nat.sqrt q.den = q.den then
    (Nat.sqrt q.num.toNat : ℚ) / (Nat.sqrt q.den : ℚ)
  else 0

/-- Translated from `kb_retrieval._cosine`: 0 for empty or length-mismatched
vectors and for a non-positive denominator, else the cosine similarity. -/
def cosine (a b : List ℚ) : ℚ :=
  if a = [] ∨ b = [] ∨ a.length ≠ b.length then 0
  else if ratSqrt ((a.map fun x => x * x).sum) * ratSqrt ((b.map fun y => y * y).sum)
      ≤ 0 then 0
  else ((a.zip b).map fun p => p.1 * p.2).sum /
    (ratSqrt ((a.map fun x => x * x).sum) * ratSqrt ((b.map fun y => y * y).sum))

/-- Translated from `kb_retrieval._fts_quality`: `1/(1+|score|)`. -/
def ftsQuality (score : ℚ) : ℚ := 1 / (1 + |score|)

/-- Translated from `KBHybridRetriever._semantic_search`, with the store and
network effects as oracles: `chunkIds` is what `kb.list_chunks` returned,
`qvec` the query embedding (`none` models a failed embedding call) and `emb`
the per-chunk vectors available after the best-effort backfill.  The
streaming top-K min-heap plus final sort is modelled as
sort-descending-then-take (the same selection whenever scores are distinct). -/
def semantic_search (chunkIds : List Str) (qvec : Option (List ℚ))
    (emb : Str → Option (List ℚ)) (top_k : ℕ) : List (Str × ℚ) :=
  if chunkIds = [] then []
  else
    match qvec with
    | none => []
    | some q =>
      ((chunkIds.dedup.filterMap fun cid =>
        match emb cid with
        | some v => if v = [] then none else some (cid, cosine q v)
        | none => none).insertionSort fun x y => y.2 ≤ x.2).take (max 1 top_k)

/-- One combined-result row of `KBHybridRetriever.search` (the metadata
columns are elided; `retrieval` is the pair of membership flags). -/
structure SearchHit where
  chunk_id : Str
  fts_score : ℚ
  fts_quality : ℚ
  semantic_score : ℚ
  fromFts : Bool
  fromSemantic : Bool
  rerank_score : Option ℚ
deriving DecidableEq, Repr

/-- The FTS loop body of `search`: update an existing combined entry's FTS
fields (`setdefault` keeps its semantic score) or append a fresh entry with
`semantic_score` defaulted to 0. -/
def addFtsHit (acc : List SearchHit) (h : Str × ℚ) : List SearchHit :=
  if h.1 = [] then acc
  else if (acc.find? fun x => x.chunk_id = h.1).isSome then
    acc.map fun x =>
      if x.chunk_id = h.1 then
        { x with fts_score := h.2, fts_quality := ftsQuality h.2, fromFts := true }
      else x
  else acc ++ [⟨h.1, h.2, ftsQuality h.2, 0, true, false, none⟩]

/-- The semantic loop body of `search`: overwrite the semantic score of an
existing entry (its FTS fields are kept) or append a fresh entry with
`fts_score` and `fts_quality` defaulted to 0. -/
def addSemHit (acc : List SearchHit) (h : Str × ℚ) : List SearchHit :=
  if h.1 = [] then acc
  else if (acc.find? fun x => x.chunk_id = h.1).isSome then
    acc.map fun x =>
      if x.chunk_id = h.1 then { x with semantic_score := h.2, fromSemantic := true }
      else x
  else acc ++ [⟨h.1, 0, 0, h.2, false, true, none⟩]

/-- The union-on-`chunk_id` of the FTS and semantic hit lists. -/
def combineHits (ftsHits semHits : List (Str × ℚ)) : List SearchHit :=
  semHits.foldl addSemHit (ftsHits.foldl addFtsHit [])

/-- The blended heuristic `0.65·semantic + 0.35·fts_quality`. -/
def heuristicScore (x : SearchHit) : ℚ :=
  65 / 100 * x.semantic_score + 35 / 100 * x.fts_quality

/-- `(mode or "hybrid").strip().lower()`. -/
def normMode (mode0 : Str) : Str :=
  pyLower (pyStrip (if mode0 = [] then str "hybrid" else mode0))

/-- `mode in ("fts", "hybrid")` selects the FTS hits. -/
def ftsSelected (mode : Str) (ftsHits : List (Str × ℚ)) : List (Str × ℚ) :=
  if mode = str "fts" ∨ mode = str "hybrid" then ftsHits else []

/-- `mode in ("semantic", "hybrid") and embedding_model_spec` selects the
semantic search. -/
def semSelected (mode em : Str) (chunkIds : List Str) (qvec : Option (List ℚ))
    (emb : Str → Option (List ℚ)) (initial_k : ℕ) : List (Str × ℚ) :=
  if (mode = str "semantic" ∨ mode = str "hybrid") ∧ em ≠ [] then
    semantic_search chunkIds qvec emb initial_k
  else []

/-- Blend, sort, truncate and optionally rerank the combined hits (the tail
of `KBHybridRetriever.search` after the two retrieval branches). -/
def searchCore (fts sem : List (Str × ℚ)) (limit initial_k : ℕ)
    (useRerank : Bool) (rr : List (ℕ × ℚ)) : List SearchHit :=
  if combineHits fts sem = [] then []
  else if useRerank ∧ rr ≠ [] then
    rr.filterMap fun r =>
      (((combineHits fts sem).insertionSort fun x y =>
          heuristicScore y ≤ heuristicScore x).take
        (max initial_k (limit * 6))).get? r.1 |>.map
        fun item => { item with rerank_score := some r.2 }
  else
    (((combineHits fts sem).insertionSort fun x y =>
        heuristicScore y ≤ heuristicScore x).take
      (max initial_k (limit * 6))).take limit

/-- Translated from `KBHybridRetriever.search`.  Oracles: `ftsHits` is what
`kb.search` returned (chunk id and BM25 score), `chunkIds`/`qvec`/`emb` feed
`_semantic_search`, and `rr` is the reranker's `{index, score}` output (its
indices are always in range of the shown prefix).  The short-lived result
cache is modelled cold: a warm hit replays a previous same-key output. -/
def search (query mode0 em : Str) (enable_rerank : Bool) (rm : Str)
    (limit0 initial_k0 : ℕ) (ftsHits : List (Str × ℚ)) (chunkIds : List Str)
    (qvec : Option (List ℚ)) (emb : Str → Option (List ℚ))
    (rr : List (ℕ × ℚ)) : List SearchHit :=
  if pyStrip query = [] then []
  else
    searchCore (ftsSelected (normMode mode0) ftsHits)
      (semSelected (normMode mode0) em chunkIds qvec emb
        (max (max 1 (min 50 limit0))
          (if initial_k0 = 0 then max (max 1 (min 50 limit0) * 4) 24 else initial_k0)))
      (max 1 (min 50 limit0))
      (max (max 1 (min 50 limit0))
        (if initial_k0 = 0 then max (max 1 (min 50 limit0) * 4) 24 else initial_k0))
      (enable_rerank && decide (rm ≠ [])) rr

theorem foldl_pres {α β : Type} (step : β → α → β) (Q : β → Prop)
    (hstep : ∀ b a, Q b → Q (step b a)) :
    ∀ (l : List α) (b : β), Q b → Q (l.foldl step b) := by
  intro l
  induction l with
  | nil => exact fun b hb => hb
  | cons a as ih => exact fun b hb => ih _ (hstep b a hb)

theorem addFtsHit_pres {P : SearchHit → Prop} (acc : List SearchHit) (h : Str × ℚ)
    (hP : ∀ x ∈ acc, P x)
    (hupd : ∀ (x : SearchHit) (s : ℚ), P x →
      P { x with fts_score := s, fts_quality := ftsQuality s, fromFts := true })
    (hnew : P ⟨h.1, h.2, ftsQuality h.2, 0, true, false, none⟩) :
    ∀ x ∈ addFtsHit acc h, P x := by
  intro x hx
  unfold addFtsHit at hx
  by_cases h1 : h.1 = []
  · rw [if_pos h1] at hx
    exact hP x hx
  · rw [if_neg h1] at hx
    by_cases h2 : (acc.find? fun x => x.chunk_id = h.1).isSome = true
    · rw [if_pos h2] at hx
      rcases List.mem_map.mp hx with ⟨x0, hx0, rfl⟩
      by_cases h3 : x0.chunk_id = h.1
      · rw [if_pos h3]
        exact hupd x0 h.2 (hP x0 hx0)
      · rw [if_neg h3]
        exact hP x0 hx0
    · rw [if_neg h2] at hx
      rcases List.mem_append.mp hx with hx | hx
      · exact hP x hx
      · rw [List.mem_singleton.mp hx]
        exact hnew

theorem addSemHit_pres {P : SearchHit → Prop} (acc : List SearchHit) (h : Str × ℚ)
    (hP : ∀ x ∈ acc, P x)
    (hupd : ∀ (x : SearchHit) (s : ℚ), P x →
      P { x with semantic_score := s, fromSemantic := true })
    (hnew : P ⟨h.1, 0, 0, h.2, false, true, none⟩) :
    ∀ x ∈ addSemHit acc h, P x := by
  intro x hx
  unfold addSemHit at hx
  by_cases h1 : h.1 = []
  · rw [if_pos h1] at hx
    exact hP x hx
  · rw [if_neg h1] at hx
    by_cases h2 : (acc.find? fun x => x.chunk_id = h.1).isSome = true
    · rw [if_pos h2] at hx
      rcases List.mem_map.mp hx with ⟨x0, hx0, rfl⟩
      by_cases h3 : x0.chunk_id = h.1
      · rw [if_pos h3]
        exact hupd x0 h.2 (hP x0 hx0)
      · rw [if_neg h3]
        exact hP x0 hx0
    · rw [if_neg h2] at hx
      rcases List.mem_append.mp hx with hx | hx
      · exact hP x hx
      · rw [List.mem_singleton.mp hx]
        exact hnew

theorem combineHits_sem_zero (ftsHits : List (Str × ℚ)) :
    ∀ x ∈ combineHits ftsHits [], x.semantic_score = 0 := by
  show ∀ x ∈ List.foldl addFtsHit [] ftsHits, x.semantic_score = 0
  exact foldl_pres addFtsHit (fun acc => ∀ x ∈ acc, x.semantic_score = 0)
    (fun acc a hacc => addFtsHit_pres acc a hacc (fun x s hxp => hxp) rfl)
    ftsHits [] (fun x hx => absurd hx (List.not_mem_nil x))

theorem combineHits_fts_zero (semHits : List (Str × ℚ)) :
    ∀ x ∈ combineHits [] semHits, x.fts_score = 0 := by
  show ∀ x ∈ List.foldl addSemHit (List.foldl addFtsHit [] []) semHits, _
  exact foldl_pres addSemHit (fun acc => ∀ x ∈ acc, x.fts_score = 0)
    (fun acc a hacc => addSemHit_pres acc a hacc (fun x s hxp => hxp) rfl)
    semHits [] (fun x hx => absurd hx (List.not_mem_nil x))

theorem combineHits_from (ftsHits semHits : List (Str × ℚ)) :
    ∀ x ∈ combineHits ftsHits semHits,
      x.fromFts = true ∨ x.fromSemantic = true := by
  unfold combineHits
  exact foldl_pres addSemHit
    (fun acc => ∀ x ∈ acc, x.fromFts = true ∨ x.fromSemantic = true)
    (fun acc a hacc => addSemHit_pres acc a hacc
      (fun x s _ => Or.inr rfl) (Or.inr rfl))
    semHits _
    (foldl_pres addFtsHit
      (fun acc => ∀ x ∈ acc, x.fromFts = true ∨ x.fromSemantic = true)
      (fun acc a hacc => addFtsHit_pres acc a hacc
        (fun x s _ => Or.inl rfl) (Or.inl rfl))
      ftsHits [] (fun x hx => absurd hx (List.not_mem_nil x)))

theorem mem_searchCore {fts sem : List (Str × ℚ)} {limit initial_k : ℕ}
    {useRerank : Bool} {rr : List (ℕ × ℚ)} {h : SearchHit}
    (hmem : h ∈ searchCore fts sem limit initial_k useRerank rr) :
    ∃ x ∈ combineHits fts sem, h.fts_score = x.fts_score ∧
      h.semantic_score = x.semantic_score ∧ h.fromFts = x.fromFts ∧
      h.fromSemantic = x.fromSemantic := by
  unfold searchCore at hmem
  by_cases h1 : combineHits fts sem = []
  · rw [if_pos h1] at hmem
    cases hmem
  · rw [if_neg h1] at hmem
    by_cases h2 : useRerank = true ∧ rr ≠ []
    · rw [if_pos h2] at hmem
      rcases List.mem_filterMap.mp hmem with ⟨r, -, hval⟩
      cases hget : (((combineHits fts sem).insertionSort fun x y =>
          heuristicScore y ≤ heuristicScore x).take
            (max initial_k (limit * 6))).get? r.1 with
      | none =>
        rw [hget] at hval
        cases hval
      | some item =>
        rw [hget] at hval
        have hval2 : { item with rerank_score := some r.2 } = h :=
          Option.some.inj hval
        refine ⟨item, ?_, ?_, ?_, ?_, ?_⟩
        · have hm1 := List.mem_of_mem_take (List.get?_mem hget)
          exact (List.perm_insertionSort _ _).mem_iff.mp hm1
        · rw [← hval2]
        · rw [← hval2]
        · rw [← hval2]
        · rw [← hval2]
    · rw [if_neg h2] at hmem
      have hm1 := List.mem_of_mem_take hmem
      have hm2 := List.mem_of_mem_take hm1
      exact ⟨h, (List.perm_insertionSort _ _).mem_iff.mp hm2, rfl, rfl, rfl, rfl⟩

/-- C8 (amended): on every `search` call, `mode=fts` gives `semantic_score=0`
on every hit and `mode=semantic` gives `fts_score=0` on every hit, exactly as
claimed; in `mode=hybrid` every hit was produced by at least one of the two
retrieval paths (its retrieval set is non-empty), but both of its scores can
simultaneously be zero (zero BM25 score or zero cosine similarity). -/
theorem kb_search_mode_score_invariants (query mode0 em rm : Str)
    (enable_rerank : Bool) (limit0 initial_k0 : ℕ) (ftsHits : List (Str × ℚ))
    (chunkIds : List Str) (qvec : Option (List ℚ)) (emb : Str → Option (List ℚ))
    (rr : List (ℕ × ℚ)) (h : SearchHit)
    (hmem : h ∈ search query mode0 em enable_rerank rm limit0 initial_k0
      ftsHits chunkIds qvec emb rr) :
    (normMode mode0 = str "fts" → h.semantic_score = 0) ∧
    (normMode mode0 = str "semantic" → h.fts_score = 0) ∧
    (normMode mode0 = str "hybrid" →
      h.fromFts = true ∨ h.fromSemantic = true) := by
  unfold search at hmem
  by_cases hq : pyStrip query = []
  · rw [if_pos hq] at hmem
    cases hmem
  · rw [if_neg hq] at hmem
    obtain ⟨x, hx, hfts, hsem, hff, hfs⟩ := mem_searchCore hmem
    refine ⟨?_, ?_, ?_⟩
    · intro heq
      rw [hsem]
      rw [show ftsSelected (normMode mode0) ftsHits = ftsHits by
          unfold ftsSelected
          rw [if_pos (Or.inl heq)],
        show semSelected (normMode mode0) em chunkIds qvec emb
            (max (max 1 (min 50 limit0))
              (if initial_k0 = 0 then max (max 1 (min 50 limit0) * 4) 24
                else initial_k0)) = [] by
          unfold semSelected
          rw [if_neg]
          intro hc
          rw [heq] at hc
          rcases hc.1 with hc1 | hc1 <;> exact absurd hc1 (by decide)] at hx
      exact combineHits_sem_zero ftsHits x hx
    · intro heq
      rw [hfts]
      rw [show ftsSelected (normMode mode0) ftsHits = [] by
          unfold ftsSelected
          rw [if_neg]
          intro hc
          rw [heq] at hc
          rcases hc with hc1 | hc1 <;> exact absurd hc1 (by decide)] at hx
      exact combineHits_fts_zero _ x hx
    · intro _
      rw [hff, hfs]
      exact combineHits_from _ _ x hx

theorem kb_search_mode_score_invariants_witness :
    (normMode (str "fts") = str "fts" →
      (⟨str "c2", -3, 1 / 4, 0, true, false, none⟩ : SearchHit).semantic_score = 0) ∧
    (normMode (str "fts") = str "semantic" →
      (⟨str "c2", -3, 1 / 4, 0, true, false, none⟩ : SearchHit).fts_score = 0) ∧
    (normMode (str "fts") = str "hybrid" →
      (⟨str "c2", -3, 1 / 4, 0, true, false, none⟩ : SearchHit).fromFts = true ∨
      (⟨str "c2", -3, 1 / 4, 0, true, false, none⟩ : SearchHit).fromSemantic = true) :=
  kb_search_mode_score_invariants (str "q") (str "fts") (str "em") (str "")
    false 5 0 [(str "c2", -3)] [str "c1"] (some [1, 0]) (fun _ => none) []
    ⟨str "c2", -3, 1 / 4, 0, true, false, none⟩
    (by with_unfolding_all decide)

/-- C8 counterexample: in hybrid mode a hit retrieved only semantically with
cosine similarity 0 is returned with `fts_score = 0` and
`semantic_score = 0`, so a hybrid hit need not have a non-zero score. -/
theorem kb_search_hybrid_both_scores_zero :
    search (str "q") (str "hybrid") (str "em") false (str "") 5 0 []
        [str "c1"] (some [1, 0])
        (fun cid => if cid = str "c1" then some [0, 1] else none) [] =
      [⟨str "c1", 0, 0, 0, false, true, none⟩] ∧
    ¬ ∀ h2 ∈ search (str "q") (str "hybrid") (str "em") false (str "") 5 0 []
        [str "c1"] (some [1, 0])
        (fun cid => if cid = str "c1" then some [0, 1] else none) [],
      h2.fts_score ≠ 0 ∨ h2.semantic_score ≠ 0 := by
  refine ⟨?_, ?_⟩ <;> with_unfolding_all decide

end LLMCouncil
